import Mathlib

/-!
Verification of the finance_advisor advice pipeline (advisor/utils.py,
advisor/views.py, advisor/models.py, advisor/forms.py).

The Python source is shallowly embedded: strings are `List Char`, the
third-party HTML sanitizer (bleach) is modelled by its documented
tokenize → filter → serialize pipeline, the markdown converter by the
constructs this code path relies on, Decimal fields by `ℚ`, database
rows by lists of records, and every source of randomness or I/O
(random choices, the current date, the HTTP call outcome) by explicit
parameters.
-/

set_option maxRecDepth 16384

namespace FinAdvisor

abbrev Chars := List Char

/-- `isPre pat l` is true when `pat` is a prefix of `l` (Python `startswith`). -/
def isPre : Chars → Chars → Bool
  | [], _ => true
  | _ :: _, [] => false
  | p :: ps, c :: cs => p == c && isPre ps cs

/-- `occurs pat l` is true when `pat` occurs as a contiguous substring of `l`
(Python `pat in l`). -/
def occurs (pat : Chars) : Chars → Bool
  | [] => isPre pat []
  | c :: rest => isPre pat (c :: rest) || occurs pat rest

/-- Split `l` around the first occurrence of `pat`: `some (before, after)`
with `l = before ++ pat ++ after`, `none` when `pat` does not occur. -/
def splitFirst (pat : Chars) : Chars → Option (Chars × Chars)
  | [] => if isPre pat [] then some ([], []) else none
  | c :: rest =>
    if isPre pat (c :: rest) then some ([], (c :: rest).drop pat.length)
    else (splitFirst pat rest).map (fun ab => (c :: ab.1, ab.2))

/-- Index of the last occurrence of `pat` in `l`, if any. -/
def lastOccAux (pat : Chars) : Chars → Nat → Option Nat
  | [], i => if isPre pat [] then some i else none
  | c :: rest, i =>
    match lastOccAux pat rest (i + 1) with
    | some j => some j
    | none => if isPre pat (c :: rest) then some i else none

/-- Split `l` around the last occurrence of `pat` (Python `rsplit(pat, 1)`
when it yields two parts). -/
def rsplitOnce (pat : Chars) (l : Chars) : Option (Chars × Chars) :=
  match lastOccAux pat l 0 with
  | some j => some (l.take j, l.drop (j + pat.length))
  | none => none

/-- Left-to-right non-overlapping replacement of `pat` by `rep`
(Python `str.replace` for a non-empty pattern; an empty pattern is a no-op). -/
def replaceAll (pat rep : Chars) : Chars → Chars
  | [] => []
  | c :: rest =>
    if h : pat ≠ [] ∧ isPre pat (c :: rest) = true then
      rep ++ replaceAll pat rep ((c :: rest).drop pat.length)
    else
      c :: replaceAll pat rep rest
termination_by l => l.length
decreasing_by
  · simp only [List.length_drop, List.length_cons]
    have : pat.length ≠ 0 := fun hz => h.1 (List.eq_nil_of_length_eq_zero hz)
    omega
  · simp

/-- ASCII lower-casing of a character list (Python `str.lower` on the
ASCII text this application handles). -/
def toLowerL (l : Chars) : Chars := l.map Char.toLower

def isWsChar (c : Char) : Bool :=
  c == ' ' || c == '\t' || c == '\n' || c == '\r' || c == '\x0b' || c == '\x0c'

/-- Strip leading and trailing whitespace (Python `str.strip`). -/
def trimL (l : Chars) : Chars :=
  ((l.dropWhile isWsChar).reverse.dropWhile isWsChar).reverse

/-- Split on newline characters (used by the markdown model). -/
def splitLinesL : Chars → List Chars
  | [] => [[]]
  | c :: rest =>
    if c = '\n' then [] :: splitLinesL rest
    else
      match splitLinesL rest with
      | [] => [[c]]
      | h :: t => (c :: h) :: t

/-! ## HTML tokens

bleach.clean is html5lib's tokenizer, a sanitizing filter and a serializer
composed; we model that pipeline over this token type. -/

inductive HTok where
  | txt (s : Chars)
  | tagO (nm : Chars) (attrs : List (Chars × Chars))
  | tagC (nm : Chars)
deriving DecidableEq, Repr

def isNameChar (c : Char) : Bool :=
  ('a' ≤ c && c ≤ 'z') || ('A' ≤ c && c ≤ 'Z') || ('0' ≤ c && c ≤ '9')

def isAttrNameChar (c : Char) : Bool :=
  !(isWsChar c) && c != '=' && c != '>' && c != '/' && c != '<' && c != '"'

def isUnqValChar (c : Char) : Bool :=
  !(isWsChar c) && c != '>'

/-- Attribute scanner core of the tag tokenizer, on input already stripped
of leading whitespace (fuelled; each attribute consumes at least one input
character, so `length + 1` fuel always suffices). -/
def parseAttrsCore : Nat → Chars → List (Chars × Chars) → Option (List (Chars × Chars) × Chars)
  | 0, _, _ => none
  | _ + 1, [], _ => none
  | fuel + 1, c :: r, acc =>
    if c = '>' then some (acc.reverse, r)
    else if c = '/' then
      let r2 := r.dropWhile isWsChar
      if r2.head? = some '>' then some (acc.reverse, r2.tail) else none
    else
      let an := toLowerL ((c :: r).takeWhile isAttrNameChar)
      let r1 := (c :: r).dropWhile isAttrNameChar
      if an = [] then none
      else if r1.head? = some '=' then
        if r1.tail.head? = some '"' then
          let r3 := r1.tail.tail
          let v := r3.takeWhile (· != '"')
          let rest := r3.dropWhile (· != '"')
          if rest.head? = some '"' then
            parseAttrsCore fuel (rest.tail.dropWhile isWsChar) ((an, v) :: acc)
          else none
        else
          parseAttrsCore fuel ((r1.tail.dropWhile isUnqValChar).dropWhile isWsChar)
            ((an, r1.tail.takeWhile isUnqValChar) :: acc)
      else
        parseAttrsCore fuel (r1.dropWhile isWsChar) ((an, []) :: acc)

/-- Attribute list scanner (leading whitespace stripped at each step). -/
def parseAttrsF (fuel : Nat) (l : Chars) (acc : List (Chars × Chars)) :
    Option (List (Chars × Chars) × Chars) :=
  parseAttrsCore fuel (l.dropWhile isWsChar) acc

/-- Parse one tag after a `<`: returns the token and the remaining input, or
`none` when the text after `<` is not tag-shaped (the `<` is then literal
text, as in html5lib's bogus-markup handling). -/
def parseTag (l : Chars) : Option (HTok × Chars) :=
  if l.head? = some '/' then
    let r := l.tail
    let nm := r.takeWhile isNameChar
    if nm = [] then none
    else
      let r1 := (r.dropWhile isNameChar).dropWhile isWsChar
      if r1.head? = some '>' then some (.tagC (toLowerL nm), r1.tail) else none
  else
    let nm := l.takeWhile isNameChar
    if nm = [] then none
    else
      (parseAttrsF (l.length + 1) (l.dropWhile isNameChar) []).map
        (fun ar => (.tagO (toLowerL nm) ar.1, ar.2))

/-- Fuelled HTML tokenizer: text runs and tags (`length + 1` fuel suffices,
each step consumes at least one character). -/
def tokF : Nat → Chars → List HTok
  | 0, _ => []
  | _ + 1, [] => []
  | n + 1, c :: r =>
    if c = '<' then
      (parseTag r).elim (.txt ['<'] :: tokF n r) (fun p => p.1 :: tokF n p.2)
    else
      .txt ((c :: r).takeWhile (· != '<')) :: tokF n ((c :: r).dropWhile (· != '<'))

def tokenizeL (l : Chars) : List HTok := tokF (l.length + 1) l

def serAttr (a : Chars × Chars) : Chars :=
  ' ' :: a.1 ++ '=' :: '"' :: a.2 ++ ['"']

/-- Serialize one token back to characters (html5lib serializer shape:
double-quoted attribute values, no self-closing slashes). -/
def serTok : HTok → Chars
  | .txt s => s
  | .tagO nm attrs => '<' :: (nm ++ (attrs.map serAttr).flatten ++ ['>'])
  | .tagC nm => '<' :: '/' :: (nm ++ ['>'])

def serToks (ts : List HTok) : Chars := (ts.map serTok).flatten

/-- The tag allow-list passed to bleach.clean in format_investment_advice. -/
def allowedTagNames : List Chars :=
  ["p", "h1", "h2", "h3", "h4", "b", "i", "strong", "em",
   "ul", "ol", "li", "br", "table", "thead", "tbody",
   "tr", "th", "td", "hr", "div", "span"].map String.data

/-- The attribute allow-list (`'*': ['class', 'style']`). -/
def allowedAttrNames : List Chars := ["class", "style"].map String.data

def escTextChar (c : Char) : Chars :=
  if c = '&' then "&amp;".data
  else if c = '<' then "&lt;".data
  else if c = '>' then "&gt;".data
  else [c]

/-- Entity-escape a text run (what the serializer does to character data;
folded into the filter here). -/
def escText : Chars → Chars
  | [] => []
  | c :: rest => escTextChar c ++ escText rest

def escValChar (c : Char) : Chars :=
  if c = '&' then "&amp;".data
  else if c = '<' then "&lt;".data
  else if c = '>' then "&gt;".data
  else if c = '"' then "&quot;".data
  else [c]

/-- Entity-escape an attribute value (bleach's serializer escapes quotes,
ampersands and angle brackets in attribute values). -/
def escVal : Chars → Chars
  | [] => []
  | c :: rest => escValChar c ++ escVal rest

/-- The sanitizing filter: allowed tags keep only allowed attributes
(values escaped); any other tag is escaped to literal text, which is
bleach's default strip=False behaviour; text runs are entity-escaped. -/
def filterTok : HTok → HTok
  | .txt s => .txt (escText s)
  | .tagO nm attrs =>
    if nm ∈ allowedTagNames then
      .tagO nm (((attrs.filter (fun a => a.1 ∈ allowedAttrNames)).map
        (fun a => (a.1, escVal a.2))))
    else .txt (escText (serTok (.tagO nm attrs)))
  | .tagC nm =>
    if nm ∈ allowedTagNames then .tagC nm
    else .txt (escText (serTok (.tagC nm)))

/-- Push a text run onto a token list, merging with a leading text token and
dropping empty runs (serializer normalization). -/
def pushTxt (s : Chars) (ts : List HTok) : List HTok :=
  if s = [] then ts
  else
    match ts with
    | .txt s2 :: r => .txt (s ++ s2) :: r
    | _ => .txt s :: ts

/-- Normalize a token list: merge adjacent text runs, drop empty ones. -/
def mergeTxts : List HTok → List HTok
  | [] => []
  | .txt s :: rest => pushTxt s (mergeTxts rest)
  | t :: rest => t :: mergeTxts rest

/-- Model of `bleach.clean(html, tags=allowed_tags, attributes=allowed_attrs)`:
tokenize, sanitize each token, serialize. -/
def bleachCleanL (l : Chars) : Chars :=
  serToks (mergeTxts ((tokenizeL l).map filterTok))

/-! ## Regex substitutions of format_investment_advice -/

/-- Scan for the closing `**` of a bold span: `.*?` cannot cross a newline
(no DOTALL flag on this pattern). Returns the span body and the input after
the closing `**`. -/
def findBoldClose : Chars → Option (Chars × Chars)
  | [] => none
  | c :: rest =>
    if isPre "**".data (c :: rest) then some ([], rest.drop 1)
    else if c = '\n' then none
    else
      match findBoldClose rest with
      | some (m, r) => some (c :: m, r)
      | none => none

/-- Model of `re.sub(r'(\*\*.*?\*\*)', r'\1\n', s)`: append a newline after
every non-greedy bold span. -/
def boldSub : Chars → Chars
  | [] => []
  | c :: rest =>
    if isPre "**".data (c :: rest) then
      match h : findBoldClose ((c :: rest).drop 2) with
      | some (mid, r2) => '*' :: '*' :: (mid ++ '*' :: '*' :: '\n' :: boldSub r2)
      | none => c :: boldSub rest
    else c :: boldSub rest
termination_by l => l.length
decreasing_by
  · have key : ∀ l m r, findBoldClose l = some (m, r) → r.length < l.length + 1 := by
      intro l
      induction l with
      | nil => intro m r hmr; simp [findBoldClose] at hmr
      | cons a as ih =>
        intro m r hmr
        simp only [findBoldClose] at hmr
        split at hmr
        · simp only [Option.some.injEq, Prod.mk.injEq] at hmr
          have := hmr.2
          subst this
          have : (as.drop 1).length ≤ as.length := by
            simp [List.length_drop]
          simp only [List.length_cons]
          omega
        · split at hmr
          · exact absurd hmr (by simp)
          · cases hfc : findBoldClose as with
            | none => rw [hfc] at hmr; exact absurd hmr (by simp)
            | some p =>
              rw [hfc] at hmr
              obtain ⟨pm, pr⟩ := p
              simp only [Option.some.injEq, Prod.mk.injEq] at hmr
              have := ih pm pr hfc
              have := hmr.2
              subst this
              simp only [List.length_cons]
              omega
    have h2 := key _ _ _ h
    simp only [List.drop, List.length_cons] at h2 ⊢
    have : (rest.drop 1).length ≤ rest.length := by simp [List.length_drop]
    omega
  · simp
  · simp

def isReWs (c : Char) : Bool := isWsChar c

/-- Model of `re.sub(r'(\d+\.\s)', r'\n\1', s)`: insert a newline before a
run of digits followed by a period and a whitespace character. -/
def numSub : Chars → Chars
  | [] => []
  | c :: rest =>
    if c.isDigit then
      match h1 : rest.dropWhile Char.isDigit with
      | '.' :: r2 =>
        match h2 : r2 with
        | w :: r3 =>
          if isReWs w then
            '\n' :: c :: (rest.takeWhile Char.isDigit ++ '.' :: w :: numSub r3)
          else c :: numSub rest
        | [] => c :: numSub rest
      | _ => c :: numSub rest
    else c :: numSub rest
termination_by l => l.length
decreasing_by
  · have hle : ∀ l : List Char, (l.dropWhile Char.isDigit).length ≤ l.length := by
      intro l
      induction l with
      | nil => simp [List.dropWhile]
      | cons a as ih =>
        simp only [List.dropWhile]
        split
        · simp only [List.length_cons]; omega
        · simp
    have h3 := hle rest
    rw [h1] at h3
    simp only [List.length_cons] at h3 ⊢
    omega
  · simp
  · simp
  · simp
  · simp

/-- One-pass model of Python `html.unescape` restricted to the named
entities this content can contain. -/
def unescapeHtmlL : Chars → Chars
  | [] => []
  | c :: rest =>
    if isPre "&lt;".data (c :: rest) then '<' :: unescapeHtmlL ((c :: rest).drop 4)
    else if isPre "&gt;".data (c :: rest) then '>' :: unescapeHtmlL ((c :: rest).drop 4)
    else if isPre "&amp;".data (c :: rest) then '&' :: unescapeHtmlL ((c :: rest).drop 5)
    else if isPre "&quot;".data (c :: rest) then '"' :: unescapeHtmlL ((c :: rest).drop 6)
    else c :: unescapeHtmlL rest
termination_by l => l.length
decreasing_by
  all_goals simp only [List.drop, List.length_cons, List.length_drop] <;> omega

/-! ## Markdown conversion model

Model of the third-party `markdown.markdown(s, extensions=['tables',
'nl2br'])` call, restricted to the constructs this pipeline relies on:
blocks are separated by blank lines; a block whose first line starts with
`<` is a raw HTML block and passes through unchanged (Python-Markdown
stashes and restores raw HTML, including script tags — sanitization is
bleach's job, downstream); `#` lines become headings; anything else
becomes a paragraph, with `**…**` turned into `<strong>` spans and, per
nl2br, internal line breaks rendered as `<br>`. -/

def mdStrong : Chars → Chars
  | [] => []
  | c :: rest =>
    if isPre "**".data (c :: rest) then
      match h : findBoldClose ((c :: rest).drop 2) with
      | some (mid, r2) =>
        "<strong>".data ++ mid ++ "</strong>".data ++ mdStrong r2
      | none => c :: mdStrong rest
    else c :: mdStrong rest
termination_by l => l.length
decreasing_by
  · have key : ∀ l m r, findBoldClose l = some (m, r) → r.length < l.length + 1 := by
      intro l
      induction l with
      | nil => intro m r hmr; simp [findBoldClose] at hmr
      | cons a as ih =>
        intro m r hmr
        simp only [findBoldClose] at hmr
        split at hmr
        · simp only [Option.some.injEq, Prod.mk.injEq] at hmr
          have := hmr.2
          subst this
          have : (as.drop 1).length ≤ as.length := by simp [List.length_drop]
          simp only [List.length_cons]
          omega
        · split at hmr
          · exact absurd hmr (by simp)
          · cases hfc : findBoldClose as with
            | none => rw [hfc] at hmr; exact absurd hmr (by simp)
            | some p =>
              rw [hfc] at hmr
              obtain ⟨pm, pr⟩ := p
              simp only [Option.some.injEq, Prod.mk.injEq] at hmr
              have := ih pm pr hfc
              have := hmr.2
              subst this
              simp only [List.length_cons]
              omega
    have h2 := key _ _ _ h
    simp only [List.drop, List.length_cons] at h2 ⊢
    have : (rest.drop 1).length ≤ rest.length := by simp [List.length_drop]
    omega
  · simp
  · simp

/-- Group lines into blocks separated by blank lines. -/
def groupBlocks : List Chars → List (List Chars)
  | [] => []
  | line :: rest =>
    if trimL line = [] then groupBlocks rest
    else
      match groupBlocks rest with
      | [] => [[line]]
      | b :: bs =>
        match rest with
        | [] => [[line]]
        | nxt :: _ => if trimL nxt = [] then [line] :: b :: bs else (line :: b) :: bs

def countHashes : Chars → Nat
  | [] => 0
  | c :: rest => if c = '#' then countHashes rest + 1 else 0

def mdBlock (b : List Chars) : Chars :=
  match b with
  | [] => []
  | line0 :: _ =>
    let t0 := trimL line0
    match t0 with
    | [] => []
    | c :: _ =>
      if c = '<' then List.intercalate "\n".data b
      else
        let k := countHashes t0
        if 0 < k ∧ k ≤ 6 then
          let content := trimL (t0.drop k)
          "<h".data ++ (toString k).data ++ ">".data ++ mdStrong content ++
            "</h".data ++ (toString k).data ++ ">".data
        else
          "<p>".data ++ mdStrong (List.intercalate "<br>\n".data (b.map trimL)) ++ "</p>".data

def mdConvert (l : Chars) : Chars :=
  List.intercalate "\n".data ((groupBlocks (splitLinesL l)).map mdBlock)

/-! ## The Response Formatter -/

def wrapOpenS : String := "<div class=\"advice-content\">"

def escWrapS : String := "&lt;div class=\"advice-content\"&gt;"

/-- Wrapper-extraction step of format_investment_advice: the first match of
`re.search(r'<div class="advice-content">(.*?)</div>', s, re.DOTALL)` is the
content between the first wrapper opening and the first `</div>` after it. -/
def unwrapL (l : Chars) : Chars :=
  if occurs wrapOpenS.data l then
    ((splitFirst wrapOpenS.data l).bind
      (fun pr => (splitFirst "</div>".data pr.2).map Prod.fst)).getD l
  else l

/-- Class-injection step 6: exact-match tag substitutions. -/
def injectAll (l : Chars) : Chars :=
  replaceAll "<ol>".data "<ol class=\"advice-list\" style=\"margin-bottom: 16px;\">".data
    (replaceAll "<ul>".data "<ul class=\"advice-list\" style=\"margin-bottom: 16px;\">".data
      (replaceAll "<p>".data "<p class=\"advice-paragraph\">".data
        (replaceAll "<h3>".data "<h3 class=\"advice-heading\">".data
          (replaceAll "<h2>".data "<h2 class=\"advice-heading\">".data
            (replaceAll "<h1>".data "<h1 class=\"advice-heading\">".data l)))))

/-- The content format_investment_advice puts inside the wrapper div:
unescape a previously escaped wrapper, de-nest an existing wrapper,
normalize bold/numbered pseudo-markdown, convert markdown, sanitize with
bleach, inject presentation classes. -/
def fmtInnerL (raw : Chars) : Chars :=
  let r1 := if occurs escWrapS.data raw then unescapeHtmlL raw else raw
  let r2 := unwrapL r1
  let r3 := numSub (boldSub r2)
  injectAll (bleachCleanL (mdConvert r3))

/-- Model of format_investment_advice (utils.py): the formatted inner
content wrapped in the advice-content div. -/
def fmtAdviceL (raw : Chars) : Chars :=
  wrapOpenS.data ++ fmtInnerL raw ++ "</div>".data

def fmtAdvice (s : String) : String := ⟨fmtAdviceL s.data⟩

/-! ## The Fallback Generator (generate_mock_investment_advice)

Sources of nondeterminism are explicit parameters: `sampled` is the
result of `random.sample(potential_topics, min(2, len(...)))` (used only
when no topic keyword matches), `rid` is `random.randint(1000, 9999)`,
and `curDate` is `datetime.now().strftime("%B %d, %Y")`. -/

inductive Risk where
  | conservative
  | moderate
  | aggressive
deriving DecidableEq, BEq, Repr

def toLowerS (s : String) : String := ⟨toLowerL s.data⟩

def occursS (pat s : String) : Bool := occurs pat.data s.data

/-- Risk-profile classification from the lower-cased prompt. -/
def riskOf (pl : String) : Risk :=
  if occursS "conservative" pl || occursS "low risk" pl then .conservative
  else if occursS "aggressive" pl || occursS "high risk" pl then .aggressive
  else .moderate

/-- The fixed topic keyword table (insertion order of the Python dict). -/
def topicTable : List (String × List String) :=
  [("retirement", ["retirement planning", "pension", "retirement fund", "retire"]),
   ("stocks", ["stock", "equity", "shares", "market"]),
   ("mutual_funds", ["mutual fund", "sip", "systematic"]),
   ("real_estate", ["real estate", "property", "home", "house"]),
   ("tax", ["tax", "taxation", "tax-saving", "tax benefit"]),
   ("debt", ["debt", "bond", "fixed income", "deposit"]),
   ("gold", ["gold", "precious metal", "commodity"]),
   ("international", ["international", "global", "foreign", "overseas"]),
   ("crypto", ["crypto", "bitcoin", "ethereum", "blockchain"]),
   ("emergency", ["emergency", "contingency", "rainy day", "liquid"])]

def mentionedTopics (pl : String) : List String :=
  (topicTable.filter (fun t => t.2.any (fun k => occursS k pl))).map Prod.fst

def questionWords : List String :=
  ["what", "how", "why", "when", "where", "which", "can", "should"]

/-- `is_question`: a literal question mark in the prompt, or an
interrogative word in its lower-casing. -/
def isQuestion (prompt : String) : Bool :=
  occursS "?" prompt || questionWords.any (fun q => occursS q (toLowerS prompt))

/-- Conservative full-document advice template (utils.py, advice dict). -/
def consTemplate : String :=
  "\n<h2 class=\"advice-heading\">Personalized Investment Advice - Conservative Profile</h2>\n\n<p class=\"advice-paragraph\">Based on your conservative risk profile, here are my recommendations:</p>\n\n<ol class=\"advice-list\">\n  <li>\n    <strong>Fixed Income Investments (60-70%)</strong>\n    <ul>\n      <li>Government bonds and treasury bills</li>\n      <li>AAA-rated corporate bonds</li>\n      <li>Fixed deposits in major banks</li>\n      <li>Debt mutual funds with high-quality holdings</li>\n    </ul>\n  </li>\n  \n  <li>\n    <strong>Equity Investments (15-25%)</strong>\n    <ul>\n      <li>Large-cap mutual funds focused on stable blue-chip companies</li>\n      <li>Index funds tracking major indices like Nifty 50</li>\n      <li>Dividend-yielding stocks from established sectors</li>\n    </ul>\n  </li>\n  \n  <li>\n    <strong>Alternative Investments (5-10%)</strong>\n    <ul>\n      <li>Gold ETFs or sovereign gold bonds</li>\n      <li>REITs (Real Estate Investment Trusts) with stable income properties</li>\n    </ul>\n  </li>\n  \n  <li>\n    <strong>Cash and Equivalents (5-10%)</strong>\n    <ul>\n      <li>Liquid funds</li>\n      <li>Short-term fixed deposits</li>\n      <li>Savings accounts with competitive interest rates</li>\n    </ul>\n  </li>\n</ol>\n\n<p class=\"advice-paragraph\"><strong>Key Considerations:</strong></p>\n<ul class=\"advice-list\">\n  <li>Focus on capital preservation and steady income</li>\n  <li>Maintain emergency fund covering 6-9 months of expenses</li>\n  <li>Review portfolio quarterly and rebalance annually</li>\n  <li>Consider tax-efficient investments like ELSS for tax planning</li>\n</ul>\n\n<p class=\"advice-paragraph\">This conservative allocation aims to provide stability and income while minimizing volatility.</p>\n"

/-- Moderate full-document advice template (utils.py, advice dict). -/
def modTemplate : String :=
  "\n<h2 class=\"advice-heading\">Personalized Investment Advice - Moderate Risk Profile</h2>\n\n<p class=\"advice-paragraph\">Based on your moderate risk profile, here are my balanced recommendations:</p>\n\n<ol class=\"advice-list\">\n  <li>\n    <strong>Equity Investments (40-50%)</strong>\n    <ul>\n      <li>Diversified large and mid-cap mutual funds</li>\n      <li>Index funds tracking major indices</li>\n      <li>Select growth stocks in promising sectors</li>\n      <li>International equity funds (5-10% allocation)</li>\n    </ul>\n  </li>\n  \n  <li>\n    <strong>Fixed Income (30-40%)</strong>\n    <ul>\n      <li>Government and corporate bonds</li>\n      <li>Short to medium duration debt funds</li>\n      <li>Fixed deposits with laddering strategy</li>\n    </ul>\n  </li>\n  \n  <li>\n    <strong>Alternative Investments (10-15%)</strong>\n    <ul>\n      <li>REITs and InvITs for real estate exposure</li>\n      <li>Gold ETFs or sovereign gold bonds</li>\n      <li>Balanced advantage funds</li>\n    </ul>\n  </li>\n  \n  <li>\n    <strong>Cash and Equivalents (5-10%)</strong>\n    <ul>\n      <li>Liquid funds for emergency needs</li>\n      <li>Short-term deposits</li>\n    </ul>\n  </li>\n</ol>\n\n<p class=\"advice-paragraph\"><strong>Key Strategies:</strong></p>\n<ul class=\"advice-list\">\n  <li>Implement systematic investment plans (SIPs) for equity investments</li>\n  <li>Consider tax-efficient options like ELSS for equity portion</li>\n  <li>Maintain emergency fund covering 4-6 months of expenses</li>\n  <li>Review portfolio quarterly and rebalance semi-annually</li>\n</ul>\n\n<p class=\"advice-paragraph\">This balanced approach aims to provide growth potential while managing downside risk through diversification.</p>\n"

/-- Aggressive full-document advice template (utils.py, advice dict). -/
def aggTemplate : String :=
  "\n<h2 class=\"advice-heading\">Personalized Investment Advice - Aggressive Growth Profile</h2>\n\n<p class=\"advice-paragraph\">Based on your aggressive risk profile, here are my growth-oriented recommendations:</p>\n\n<ol class=\"advice-list\">\n  <li>\n    <strong>Equity Investments (65-75%)</strong>\n    <ul>\n      <li>Diversified mid and small-cap funds</li>\n      <li>Sectoral and thematic funds in high-growth areas</li>\n      <li>Direct equity in growth companies</li>\n      <li>International equity funds (15-20% allocation)</li>\n    </ul>\n  </li>\n  \n  <li>\n    <strong>Fixed Income (10-20%)</strong>\n    <ul>\n      <li>Strategic bond funds</li>\n      <li>Credit risk funds with higher yields</li>\n      <li>Short-duration debt for liquidity</li>\n    </ul>\n  </li>\n  \n  <li>\n    <strong>Alternative Investments (10-15%)</strong>\n    <ul>\n      <li>REITs and InvITs</li>\n      <li>Commodity ETFs</li>\n      <li>Structured products with capital appreciation focus</li>\n      <li>Private equity funds (if accessible)</li>\n    </ul>\n  </li>\n  \n  <li>\n    <strong>Cash and Equivalents (0-5%)</strong>\n    <ul>\n      <li>Minimal cash holdings</li>\n      <li>Liquid funds only for immediate needs</li>\n    </ul>\n  </li>\n</ol>\n\n<p class=\"advice-paragraph\"><strong>Key Strategies:</strong></p>\n<ul class=\"advice-list\">\n  <li>Implement systematic investment plans (SIPs) with step-up feature</li>\n  <li>Consider tactical asset allocation based on market conditions</li>\n  <li>Maintain higher exposure to emerging sectors like technology, renewable energy</li>\n  <li>Review portfolio monthly and rebalance quarterly</li>\n</ul>\n\n<p class=\"advice-paragraph\">This aggressive allocation aims to maximize long-term growth potential while accepting higher short-term volatility.</p>\n"

/-- Question-branch unique strategy suggestions (utils.py). -/
def uniqueRecsQ : List String := [
  "<p>Consider factor-based investing through smart-beta ETFs that offer a blend of active and passive strategies at lower costs than traditional active funds.</p>",
  "<p>Look into target-date funds that automatically adjust asset allocation as you approach your financial goal date.</p>",
  "<p>Explore the possibility of investing in municipal bonds which offer tax-free interest income.</p>",
  "<p>Consider value-averaging as an alternative to regular SIPs, where you adjust your investment amount to meet a predetermined growth rate.</p>",
  "<p>Investigate fractional property investments through platforms that allow you to own a percentage of premium real estate.</p>",
  "<p>Look into inflation-indexed bonds that provide protection against rising prices by adjusting returns based on inflation rates.</p>"]

/-- Non-question unique strategy suggestions, text before the inserted response id. -/
def uniqueRecsNQpre : List String := [
  "<p><strong>Unique Strategy #",
  "<p><strong>Unique Strategy #",
  "<p><strong>Unique Strategy #",
  "<p><strong>Unique Strategy #",
  "<p><strong>Unique Strategy #",
  "<p><strong>Unique Strategy #"]

/-- Non-question unique strategy suggestions, text after the inserted response id. -/
def uniqueRecsNQpost : List String := [
  ":</strong> Consider factor-based investing through smart-beta ETFs that offer a blend of active and passive strategies at lower costs.</p>",
  ":</strong> Look into target-date funds that automatically adjust asset allocation as you approach your financial goal date.</p>",
  ":</strong> Explore the possibility of investing in municipal bonds which offer tax-free interest income.</p>",
  ":</strong> Consider value-averaging as an alternative to regular SIPs, where you adjust your investment amount to meet a predetermined growth rate.</p>",
  ":</strong> Investigate fractional property investments through platforms that allow you to own a percentage of premium real estate.</p>",
  ":</strong> Look into inflation-indexed bonds that provide protection against rising prices by adjusting returns based on inflation rates.</p>"]

/-- Per-topic advice blocks of the question branch of generate_mock_investment_advice
(utils.py): topic and risk profile select canned HTML paragraphs. -/
def topicBlock (risk : Risk) (topic : String) : List String :=
  if topic == "retirement" then
    ["<h4>Retirement Planning</h4>"] ++
    (if risk == Risk.conservative then ["<p>For retirement with a conservative approach, consider allocating 70% to fixed income instruments like government securities and high-rated bonds. The remaining 30% can be in large-cap equity funds for long-term growth.</p>"]
     else if risk == Risk.aggressive then ["<p>With an aggressive risk profile, you might consider a 70-30 split favoring equity investments for retirement. Focus on a mix of mid-cap and large-cap funds, with some international exposure for diversification.</p>"]
     else ["<p>For a balanced retirement approach, consider a 50-50 split between equity and debt. Index funds can form the core of your equity portfolio, while corporate bonds can provide stability.</p>"])
  else if topic == "stocks" then
    ["<h4>Stock Market Investments</h4>"] ++
    (if risk == Risk.conservative then ["<p>Given your conservative profile, limit direct stock exposure to 20% of your portfolio. Focus on dividend-yielding blue-chip companies with stable earnings history.</p>"]
     else if risk == Risk.aggressive then ["<p>With your aggressive approach, you can allocate up to 70% in stocks. Consider a mix of established companies and growth stocks in emerging sectors like renewable energy and technology.</p>"]
     else ["<p>For a moderate investor, a 40-50% allocation to stocks is appropriate. Focus on a diversified portfolio of large-caps with some mid-cap exposure for growth potential.</p>"])
  else if topic == "mutual_funds" then
    ["<h4>Mutual Fund Strategy</h4>"] ++
    (if risk == Risk.conservative then ["<p>Consider debt-oriented hybrid funds and large-cap funds with a track record of stable returns. Liquid funds are good for short-term goals.</p>"]
     else if risk == Risk.aggressive then ["<p>Look at sectoral funds, mid and small-cap funds, and international funds for higher growth potential. Maintain systematic investment plans (SIPs) to average out market volatility.</p>"]
     else ["<p>Balanced advantage funds and multi-cap funds can form the core of your portfolio. Consider index funds for cost-effective market exposure.</p>"])
  else if topic == "real_estate" then
    ["<h4>Real Estate Investments</h4>", "<p>REITs (Real Estate Investment Trusts) offer a liquid way to invest in real estate with lower capital requirements than direct property purchases. They typically offer dividend yields of 3-5%.</p>"] ++
    (if risk != Risk.conservative then ["<p>For physical real estate, consider residential properties in growing tier-2 cities for better rental yields compared to metropolitan areas.</p>"] else [])
  else if topic == "tax" then
    ["<h4>Tax-Efficient Investing</h4>", "<p>ELSS (Equity Linked Saving Schemes) offer tax deductions under Section 80C with a relatively short lock-in period of 3 years compared to other tax-saving instruments.</p>", "<p>Consider debt funds held for over 3 years for indexation benefits, which can significantly reduce your tax liability compared to fixed deposits.</p>"]
  else if topic == "debt" then
    ["<h4>Fixed Income Strategy</h4>"] ++
    (if risk == Risk.conservative then ["<p>Focus on government securities, AAA-rated bonds, and banking & PSU debt funds for safety. Ladder your fixed deposits to manage interest rate risk.</p>"] else ["<p>Consider corporate bond funds and strategic debt funds for potentially higher yields. Keep an eye on credit quality and duration based on interest rate outlook.</p>"])
  else if topic == "gold" then
    ["<h4>Gold Investments</h4>", "<p>Sovereign Gold Bonds offer the dual benefit of gold price appreciation and a fixed interest rate of 2.5% per annum. They\x27re more tax-efficient than physical gold.</p>", "<p>Limit gold allocation to 5-15% of your portfolio as a hedge against inflation and market volatility.</p>"]
  else if topic == "international" then
    ["<h4>International Diversification</h4>", "<p>Consider funds that invest in US markets for exposure to global technology giants not available in Indian markets.</p>"] ++
    (if risk != Risk.conservative then ["<p>Emerging market funds can offer higher growth potential but come with additional currency and geopolitical risks.</p>"] else [])
  else if topic == "crypto" then
    ["<h4>Cryptocurrency Considerations</h4>", "<p>Cryptocurrencies are highly volatile and speculative. If you\x27re interested, limit exposure to 1-5% of your portfolio based on your risk tolerance.</p>", "<p>Consider dollar-cost averaging rather than lump-sum investments given the high volatility.</p>"]
  else if topic == "emergency" then
    ["<h4>Emergency Fund Strategy</h4>", "<p>Maintain 6-12 months of expenses in highly liquid instruments like savings accounts and liquid funds.</p>", "<p>Consider a sweep-in fixed deposit linked to your savings account for better interest rates while maintaining liquidity.</p>"]
  else []

/-- Python `sep.join(xs)` (left fold with separators). -/
def intercalateS (sep : String) : List String → String
  | [] => ""
  | x :: rest => rest.foldl (fun acc y => acc ++ sep ++ y) x

def templateFor : Risk → String
  | .conservative => consTemplate
  | .moderate => modTemplate
  | .aggressive => aggTemplate

/-- Question-branch response parts, in append order. -/
def questionParts (risk : Risk) (mt : List String) (curDate : String) (rid : Nat) : List String :=
  ["<h3 class=\"advice-heading\">Financial Advice - " ++ curDate ++ "</h3>",
   "<p class=\"advice-paragraph\">Thank you for your question about " ++
     intercalateS ", " mt ++ ". Here\x27s my perspective:</p>"] ++
  (mt.map (topicBlock risk)).flatten ++
  ["<h4>Unique Strategy to Consider</h4>", uniqueRecsQ.getD (rid % 6) ""]

/-- Topic-keyed custom sections spliced into the non-question templates. -/
def customSections (mt : List String) (curDate : String) : List String :=
  ("<p class=\"advice-paragraph\"><em>Investment outlook as of " ++ curDate ++ "</em></p>") ::
  (mt.map (fun t =>
     if t == "retirement" then
       ["<h3 class=\"advice-heading\">Retirement Focus</h3>",
        "<p>For retirement planning, consider a systematic withdrawal plan (SWP) from your mutual fund investments during retirement years. This provides regular income while keeping the remaining corpus invested.</p>"]
     else if t == "tax" then
       ["<h3 class=\"advice-heading\">Tax Optimization</h3>",
        "<p>Consider tax-loss harvesting by selling investments that have experienced losses to offset capital gains tax on your profitable investments.</p>"]
     else [])).flatten

/-- Model of `rsplit(pat, 1)` splicing: `parts[0] + pat + "\n" + ins + parts[1]`
when the pattern occurs, `l + "\n" + ins` otherwise. -/
def spliceAfterLastL (pat ins l : Chars) : Chars :=
  match rsplitOnce pat l with
  | some (a, b) => a ++ pat ++ '\n' :: ins ++ b
  | none => l ++ '\n' :: ins

def spliceAfterLast (pat ins s : String) : String :=
  ⟨spliceAfterLastL pat.data ins.data s.data⟩

/-- The non-question unique-strategy suffix: template `rid % 6` with the
response id formatted in. -/
def uniqueRecNQ (rid : Nat) : String :=
  uniqueRecsNQpre.getD (rid % 6) "" ++ toString rid ++ uniqueRecsNQpost.getD (rid % 6) ""

def nonQuestionAdvice (risk : Risk) (mtF : List String) (rid : Nat) (curDate : String) : String :=
  let base := templateFor risk
  let base1 :=
    if mtF.isEmpty then base
    else spliceAfterLast "</ul>" (intercalateS "\n" (customSections mtF curDate)) base
  spliceAfterLast "</p>" (uniqueRecNQ rid) base1

/-- Model of generate_mock_investment_advice (utils.py). -/
def mockAdvice (prompt : String) (sampled : List String) (rid : Nat) (curDate : String) : String :=
  let pl := toLowerS prompt
  let risk := riskOf pl
  let mt := mentionedTopics pl
  let mtF := if mt.isEmpty then sampled else mt
  if isQuestion prompt then
    intercalateS "\n" (questionParts risk mtF curDate rid)
  else nonQuestionAdvice risk mtF rid curDate

/-! ## The Model Client (query_ollama) -/

/-- Outcome of the HTTP POST to the Ollama endpoint, as query_ollama can
observe it: a 2xx response with an optional "response" JSON field, or one
of the exception classes its handlers distinguish. -/
inductive OllamaOutcome where
  | success (respField : Option String)
  | connError
  | timeout
  | httpError
  | jsonError
  | otherError
deriving DecidableEq, Repr

/-- Model of query_ollama (utils.py): a 2xx response with a non-empty
"response" field is returned verbatim; every other outcome (missing or
empty field, connection error, timeout, HTTP error, JSON decode error,
any other exception) falls back to the mock generator on the same
prompt. The function is total: no outcome raises. -/
def queryOllama (net : OllamaOutcome) (prompt : String) (sampled : List String)
    (rid : Nat) (curDate : String) : String :=
  match net with
  | .success (some r) =>
    if r.data = [] then mockAdvice prompt sampled rid curDate else r
  | _ => mockAdvice prompt sampled rid curDate

/-! ## Profile validation (models.py and forms.py)

Decimal fields are modelled by `ℚ`; only the three money fields the
claimed invariants mention are carried. -/

structure ProfileMoney where
  monthly_income : ℚ
  monthly_expenses : ℚ
  monthly_savings : ℚ
deriving DecidableEq

def expErrMsg : String := "Monthly expenses cannot be greater than monthly income"

def savErrMsg : String := "Monthly savings cannot be greater than (income - expenses)"

/-- Field-level MinValueValidator(0) checks on the money fields, run first
by full_clean / form validation. -/
def fieldErr (p : ProfileMoney) : Option String :=
  if p.monthly_income < 0 then some "Monthly income cannot be negative"
  else if p.monthly_expenses < 0 then some "Monthly expenses cannot be negative"
  else if p.monthly_savings < 0 then some "Monthly savings cannot be negative"
  else none

/-- FinancialProfileForm.clean (forms.py): the invariant checks are guarded
by Python truthiness of income and expenses (zero is falsy). -/
def formClean (p : ProfileMoney) : Option String :=
  if p.monthly_income ≠ 0 ∧ p.monthly_expenses ≠ 0 then
    if p.monthly_expenses > p.monthly_income then some expErrMsg
    else if p.monthly_savings ≠ 0 ∧
        p.monthly_savings > p.monthly_income - p.monthly_expenses then some savErrMsg
    else none
  else none

/-- FinancialProfile.clean (models.py): unconditional invariant checks, run
by the instance full_clean that Django ModelForm validation performs. -/
def modelClean (p : ProfileMoney) : Option String :=
  if p.monthly_expenses > p.monthly_income then some expErrMsg
  else if p.monthly_savings > p.monthly_income - p.monthly_expenses then some savErrMsg
  else none

/-- Validation of a profile submission: field validators, then the form
clean, then the model clean — the first error (if any) rejects the form. -/
def validateProfile (p : ProfileMoney) : Option String :=
  match fieldErr p with
  | some e => some e
  | none =>
    match formClean p with
    | some e => some e
    | none => modelClean p

/-- create_profile / update_profile (views.py) persist the profile only when
the form validates; otherwise the store is unchanged and the error message
is re-displayed. -/
def submitProfile (store : List ProfileMoney) (p : ProfileMoney) :
    List ProfileMoney × Option String :=
  match validateProfile p with
  | some e => (store, some e)
  | none => (store ++ [p], none)

/-! ## Chat endpoint and history views (views.py)

Database rows are lists of records in insertion order; `auto_now_add`
timestamps are `Nat`. -/

structure ChatMsg where
  userId : Nat
  mtype : String
  content : String
  ts : Nat
deriving DecidableEq, Repr

structure AdviceRec where
  userId : Nat
  title : String
  content : String
  createdAt : Nat
deriving DecidableEq, Repr

/-- The request body as json.loads and `.get('message', '')` observe it:
either not valid JSON (json.loads raises) or a dict with an optional
string message field. -/
inductive ChatBody where
  | malformed
  | parsed (message : Option String)
deriving DecidableEq, Repr

structure ChatOk where
  response_html : String
  raw_response : String
  timestamp : String
deriving DecidableEq, Repr

/-- A JsonResponse: 200 payload or an error body with an explicit status. -/
inductive ChatResp where
  | ok (payload : ChatOk)
  | err (status : Nat) (msg : String)
deriving DecidableEq, Repr

def statusOf : ChatResp → Nat
  | .ok _ => 200
  | .err s _ => s

def endsWithL (suf l : Chars) : Bool := isPre suf.reverse l.reverse

/-- Wrapper stripping in both orchestrators (views.py): when the formatted
text starts with the wrapper opening and ends with `</div>`, keep
`formatted[28:-6]`. -/
def stripWrapper (s : String) : String :=
  if isPre wrapOpenS.data s.data && endsWithL "</div>".data s.data then
    ⟨(s.data.take (s.data.length - 6)).drop 28⟩
  else s

/-- Remove `<[^>]*>` matches (re.sub in the chat history context builder). -/
def stripTagsF : Nat → Chars → Chars
  | 0, l => l
  | fuel + 1, l =>
    match l with
    | [] => []
    | c :: rest =>
      if c = '<' then
        match splitFirst ['>'] rest with
        | some (_, after) => stripTagsF fuel after
        | none => c :: rest
      else c :: stripTagsF fuel rest

def stripTags (l : Chars) : Chars := stripTagsF (l.length + 1) l

/-- Profile fields the chat prompt interpolates (display strings already
resolved). -/
structure ProfileCtx where
  name : String
  age : Nat
  occupation : String
  annualIncomeText : String
  savingsText : String
  riskDisplay : String
  goalDisplay : String
deriving Repr

def lastN (n : Nat) (l : List α) : List α := (l.reverse.take n).reverse

/-- The chat-context prompt (views.py chat_with_advisor): profile context,
the last 10 turns role-tagged and HTML-stripped, and the new message.
Whitespace of the Python f-string is simplified; no claim depends on the
exact prompt text. -/
def chatPrompt (prof : ProfileCtx) (history : List ChatMsg) (userMessage : String) : String :=
  let hist := String.intercalate "" ((lastN 10 history).map (fun m =>
    (if m.mtype == "user" then "USER: " else "ASSISTANT: ") ++
      (⟨stripTags m.content.data⟩ : String) ++ "\n"))
  "Context: This user has submitted a financial profile with the following details:\n" ++
  "- Name: " ++ prof.name ++ "\n- Age: " ++ toString prof.age ++
  "\n- Occupation: " ++ prof.occupation ++
  "\n- Annual Income: " ++ prof.annualIncomeText ++
  "\n- Savings: " ++ prof.savingsText ++
  "\n- Risk Tolerance: " ++ prof.riskDisplay ++
  "\n- Investment Goal: " ++ prof.goalDisplay ++ "\n\n" ++
  "Recent conversation history:\n" ++ hist ++ "\n" ++
  "User asks: " ++ userMessage ++ "\n\n" ++
  "Provide a helpful, accurate, and personalized response addressing their question about finances or investments."

/-- Model of chat_with_advisor (views.py). Parameters beyond the request:
`profile` is the FinancialProfile lookup result, `net`/`sampled`/`rid`/
`curDate` feed the Model Client, `orchExc` models an unexpected exception
raised by the orchestration steps after the profile lookup (caught by the
generic handler), `nowIso` the response timestamp, `tsNow` the row
timestamp. Returns the response and the new chat-message table. -/
def chatWithAdvisor (msgs : List ChatMsg) (uid : Nat) (body : ChatBody)
    (profile : Option ProfileCtx) (net : OllamaOutcome) (sampled : List String)
    (rid : Nat) (curDate : String) (orchExc : Option String)
    (nowIso : String) (tsNow : Nat) : ChatResp × List ChatMsg :=
  match body with
  | .malformed => (.err 500 "Expecting value: line 1 column 1 (char 0)", msgs)
  | .parsed m =>
    let userMessage : Chars := trimL ((m.getD "").data)
    if userMessage = [] then (.err 400 "Message cannot be empty", msgs)
    else
      match profile with
      | none => (.err 404 "Financial profile not found", msgs)
      | some prof =>
        match orchExc with
        | some e => (.err 500 e, msgs)
        | none =>
          let msgs1 := msgs ++ [⟨uid, "user", ⟨userMessage⟩, tsNow⟩]
          let prompt := chatPrompt prof (msgs1.filter (fun m => m.userId == uid)) ⟨userMessage⟩
          let response := queryOllama net prompt sampled rid curDate
          let content := stripWrapper (fmtAdvice response)
          let msgs2 := msgs1 ++ [⟨uid, "advisor", content, tsNow⟩]
          (.ok ⟨content, response, nowIso⟩, msgs2)

structure HistEntry where
  mtype : String
  content : String
  formatted_content : String
  ts : Nat
deriving DecidableEq, Repr

/-- Model of get_chat_history (views.py): the user's messages ordered by
timestamp (`order_by('timestamp')` is a sort of the user's rows), each
mapped to its JSON entry (both branches pass the stored content through). -/
def getChatHistory (msgs : List ChatMsg) (uid : Nat) : List HistEntry :=
  (List.insertionSort (fun a b => a.ts ≤ b.ts)
    (msgs.filter (fun m => m.userId == uid))).map
      (fun m => ⟨m.mtype, m.content, m.content, m.ts⟩)

/-- Model of advice_history (views.py): the user's InvestmentAdvice rows
ordered by `-created_at`. -/
def adviceHistory (recs : List AdviceRec) (uid : Nat) : List AdviceRec :=
  List.insertionSort (fun a b => b.createdAt ≤ a.createdAt)
    (recs.filter (fun r => r.userId == uid))

instance : IsTotal ChatMsg (fun a b => a.ts ≤ b.ts) :=
  ⟨fun a b => Nat.le_total a.ts b.ts⟩

instance : IsTrans ChatMsg (fun a b => a.ts ≤ b.ts) :=
  ⟨fun _ _ _ h1 h2 => Nat.le_trans h1 h2⟩

instance : IsTotal AdviceRec (fun a b => b.createdAt ≤ a.createdAt) :=
  ⟨fun a b => Nat.le_total b.createdAt a.createdAt⟩

instance : IsTrans AdviceRec (fun a b => b.createdAt ≤ a.createdAt) :=
  ⟨fun _ _ _ h1 h2 => Nat.le_trans h2 h1⟩

/-- Model of generate_investment_advice (views.py): query the Model Client,
format, strip the outer wrapper, persist the row with the generated title. -/
def generateAdvice (store : List AdviceRec) (uid : Nat) (profName : String)
    (net : OllamaOutcome) (sampled : List String) (rid : Nat) (curDate : String)
    (focusAreaTitled : String) (prompt : String) (tsNow : Nat) :
    List AdviceRec × AdviceRec :=
  let raw := queryOllama net prompt sampled rid curDate
  let content := stripWrapper (fmtAdvice raw)
  let rec0 : AdviceRec :=
    ⟨uid, "Investment Advice: " ++ focusAreaTitled ++ " for " ++ profName, content, tsNow⟩
  (store ++ [rec0], rec0)

/-! ## Well-formedness of token lists

These predicates describe exactly the token lists the sanitizing filter
emits; serialization of such a list re-tokenizes to the same list. -/

/-- A serializable tag name: non-empty, name characters, already lowercase. -/
def okName (nm : Chars) : Prop :=
  nm ≠ [] ∧ ∀ c ∈ nm, isNameChar c = true ∧ c.toLower = c

/-- A serializable attribute: well-formed lowercase name, value free of
quotes and angle brackets (the serializer escapes them). -/
def wfAttr (a : Chars × Chars) : Prop :=
  a.1 ≠ [] ∧ (∀ c ∈ a.1, isAttrNameChar c = true ∧ c.toLower = c) ∧
  '"' ∉ a.2 ∧ '<' ∉ a.2

def wfTok : HTok → Prop
  | .txt s => s ≠ [] ∧ '<' ∉ s
  | .tagO nm attrs => okName nm ∧ ∀ a ∈ attrs, wfAttr a
  | .tagC nm => okName nm

def isTxtB : HTok → Bool
  | .txt _ => true
  | _ => false

/-- Well-formed token list: each token well-formed, no two adjacent text
runs (the filter merges them). -/
def wfToks (ts : List HTok) : Prop :=
  (∀ t ∈ ts, wfTok t) ∧
  List.Chain' (fun a b => isTxtB a = false ∨ isTxtB b = false) ts

/-- The sanitization guarantee on a single token: any tag is allow-listed
and carries only allow-listed attribute names. -/
def okTok : HTok → Prop
  | .txt _ => True
  | .tagO nm attrs => nm ∈ allowedTagNames ∧ ∀ a ∈ attrs, a.1 ∈ allowedAttrNames
  | .tagC nm => nm ∈ allowedTagNames

def tokTagName : HTok → Option Chars
  | .txt _ => none
  | .tagO nm _ => some nm
  | .tagC nm => some nm

def tokAttrNames : HTok → List Chars
  | .tagO _ attrs => attrs.map Prod.fst
  | _ => []

/-- Token-level effect of one exact-match class-injection replacement. -/
def injTok (pnm : Chars) (newAttrs : List (Chars × Chars)) : HTok → HTok
  | .tagO nm attrs =>
    if nm = pnm ∧ attrs = [] then .tagO nm newAttrs else .tagO nm attrs
  | t => t

/-- The six tag names targeted by the class-injection replacements. -/
def patNames : List Chars := ["h1", "h2", "h3", "p", "ul", "ol"].map String.data

/-- `earlyDiff u w` holds when `u` and `w` differ at some position below
both lengths; then `u ++ x` is never a prefix of `w ++ y`. -/
def earlyDiff : Chars → Chars → Bool
  | [], _ => false
  | _, [] => false
  | a :: as0, b :: bs0 => a != b || earlyDiff as0 bs0

/-- What the sanitizing filter guarantees of each emitted token before
text-merging: tags are fully well-formed, text runs contain no `<`
(they may still be empty or adjacent; mergeTxts repairs that). -/
def semiWf : HTok → Prop
  | .txt s => '<' ∉ s
  | t => wfTok t

/-- The exact pattern string of a class-injection replacement. -/
def tagPat (pnm : Chars) : Chars := '<' :: (pnm ++ ['>'])

/-- The attribute list injected into bare h1/h2/h3 tags. -/
def injH : List (Chars × Chars) := [("class".data, "advice-heading".data)]

/-- The attribute list injected into bare p tags. -/
def injP : List (Chars × Chars) := [("class".data, "advice-paragraph".data)]

/-- The attribute list injected into bare ul/ol tags. -/
def injL : List (Chars × Chars) :=
  [("class".data, "advice-list".data), ("style".data, "margin-bottom: 16px;".data)]

/-- The ASCII letters; the amended idempotence claim quantifies over
strings drawn from this alphabet. -/
def plainAlphabet : Chars :=
  "abcdefghijklmnopqrstuvwxyzABCDEFGHIJKLMNOPQRSTUVWXYZ".data

/-- The closing-tag string for a tag name. -/
def closePat (dnm : Chars) : Chars := '<' :: ('/' :: (dnm ++ ['>']))

/-- Token-level effect of the six class-injection replacements in order. -/
def injAllToks (M : List HTok) : List HTok :=
  ((((((M.map (injTok "h1".data injH)).map (injTok "h2".data injH)).map
      (injTok "h3".data injH)).map (injTok "p".data injP)).map
      (injTok "ul".data injL)).map (injTok "ol".data injL))

/-! ## Substring lemmas -/

theorem isPre_append_self (p t : Chars) : isPre p (p ++ t) = true := by
  induction p with
  | nil => rfl
  | cons c cs ih => simp [isPre, ih]

theorem isPre_extend {p l : Chars} (h : isPre p l = true) (t : Chars) :
    isPre p (l ++ t) = true := by
  induction p generalizing l with
  | nil => rfl
  | cons c cs ih =>
    cases l with
    | nil => simp [isPre] at h
    | cons d ds =>
      simp only [isPre, Bool.and_eq_true, beq_iff_eq] at h ⊢
      exact ⟨h.1, ih h.2⟩

theorem isPre_length {p l : Chars} (h : isPre p l = true) : p.length ≤ l.length := by
  induction p generalizing l with
  | nil => simp
  | cons c cs ih =>
    cases l with
    | nil => simp [isPre] at h
    | cons d ds =>
      simp only [isPre, Bool.and_eq_true, beq_iff_eq] at h
      simpa [List.length_cons] using Nat.succ_le_succ (ih h.2)

theorem isPre_eq_append {p l : Chars} (h : isPre p l = true) :
    l = p ++ l.drop p.length := by
  induction p generalizing l with
  | nil => simp
  | cons c cs ih =>
    cases l with
    | nil => simp [isPre] at h
    | cons d ds =>
      simp only [isPre, Bool.and_eq_true, beq_iff_eq] at h
      simpa [h.1] using ih h.2

theorem isPre_take {p l : Chars} (h : isPre p l = true) {n : Nat}
    (hn : p.length ≤ n) : isPre p (l.take n) = true := by
  induction p generalizing l n with
  | nil => rfl
  | cons c cs ih =>
    cases l with
    | nil => simp [isPre] at h
    | cons d ds =>
      cases n with
      | zero => simp at hn
      | succ m =>
        simp only [isPre, Bool.and_eq_true, beq_iff_eq] at h ⊢
        exact ⟨h.1, ih h.2 (Nat.le_of_succ_le_succ hn)⟩

theorem occurs_of_occAt {pat l : Chars} {p : Nat}
    (h : isPre pat (l.drop p) = true) : occurs pat l = true := by
  induction l generalizing p with
  | nil =>
    cases p <;> simpa [occurs] using h
  | cons c rest ih =>
    cases p with
    | zero => simp only [occurs, Bool.or_eq_true]; exact Or.inl h
    | succ q =>
      simp only [occurs, Bool.or_eq_true]
      exact Or.inr (ih (p := q) h)

theorem occurs_exists_occAt {pat l : Chars} (h : occurs pat l = true) :
    ∃ p, isPre pat (l.drop p) = true ∧ p + pat.length ≤ l.length := by
  induction l with
  | nil =>
    refine ⟨0, ?_, ?_⟩
    · simpa [occurs] using h
    · have : isPre pat ([] : Chars) = true := by simpa [occurs] using h
      simpa using isPre_length this
  | cons c rest ih =>
    simp only [occurs, Bool.or_eq_true] at h
    cases h with
    | inl h0 =>
      exact ⟨0, by simpa using h0, by simpa using isPre_length h0⟩
    | inr h1 =>
      obtain ⟨p, hp, hlen⟩ := ih h1
      exact ⟨p + 1, by simpa using hp, by simp; omega⟩

theorem occurs_append_left {pat a : Chars} (b : Chars)
    (h : occurs pat a = true) : occurs pat (a ++ b) = true := by
  induction a with
  | nil =>
    have : isPre pat ([] : Chars) = true := by simpa [occurs] using h
    cases pat with
    | nil => cases b <;> simp [occurs, isPre]
    | cons c cs => simp [isPre] at this
  | cons c rest ih =>
    simp only [occurs, Bool.or_eq_true] at h
    simp only [List.cons_append, occurs, Bool.or_eq_true]
    cases h with
    | inl h0 => exact Or.inl (isPre_extend h0 b)
    | inr h1 => exact Or.inr (ih h1)

theorem occurs_append_right {pat : Chars} (a : Chars) {b : Chars}
    (h : occurs pat b = true) : occurs pat (a ++ b) = true := by
  induction a with
  | nil => simpa using h
  | cons c rest ih =>
    simp only [List.cons_append, occurs, Bool.or_eq_true]
    exact Or.inr ih

theorem occAt_append_right {pat b : Chars} (a : Chars) {p : Nat}
    (h : isPre pat (b.drop p) = true) :
    isPre pat ((a ++ b).drop (a.length + p)) = true := by
  induction a with
  | nil => simpa using h
  | cons c rest ih => simpa [Nat.succ_add] using ih

theorem occurs_take_of_occAt {pat l : Chars} {p j : Nat}
    (h : isPre pat (l.drop p) = true) (hj : p + pat.length ≤ j) :
    occurs pat (l.take j) = true := by
  have h1 : isPre pat ((l.take j).drop p) = true := by
    rw [List.drop_take]
    exact isPre_take h (by omega)
  exact occurs_of_occAt h1

theorem head_mem_of_occurs {c : Char} {cs l : Chars}
    (h : occurs (c :: cs) l = true) : c ∈ l := by
  induction l with
  | nil => simp [occurs, isPre] at h
  | cons d ds ih =>
    simp only [occurs, Bool.or_eq_true] at h
    cases h with
    | inl h0 =>
      simp only [isPre, Bool.and_eq_true, beq_iff_eq] at h0
      simp [h0.1]
    | inr h1 => simp [ih h1]

theorem not_occurs_of_head_not_mem {c : Char} {cs l : Chars}
    (h : c ∉ l) : occurs (c :: cs) l = false := by
  cases ho : occurs (c :: cs) l with
  | false => rfl
  | true => exact absurd (head_mem_of_occurs ho) h

/-! ## rsplit lemmas -/

theorem lastOccAux_ge_start {pat : Chars} :
    ∀ (l : Chars) (i j : Nat), lastOccAux pat l i = some j → i ≤ j := by
  intro l
  induction l with
  | nil =>
    intro i j h
    by_cases hc : isPre pat [] = true
    · rw [lastOccAux, if_pos hc] at h
      simp only [Option.some.injEq] at h
      omega
    · rw [lastOccAux, if_neg hc] at h
      exact absurd h (by simp)
  | cons c rest ih =>
    intro i j h
    rw [lastOccAux] at h
    cases hrec : lastOccAux pat rest (i + 1) with
    | some j2 =>
      rw [hrec] at h
      simp only [Option.some.injEq] at h
      have := ih (i + 1) j2 hrec
      omega
    | none =>
      rw [hrec] at h
      by_cases hc : isPre pat (c :: rest) = true
      · rw [if_pos hc] at h
        simp only [Option.some.injEq] at h
        omega
      · rw [if_neg hc] at h
        exact absurd h (by simp)

theorem lastOccAux_isPre {pat : Chars} :
    ∀ (l : Chars) (i j : Nat), lastOccAux pat l i = some j →
      isPre pat (l.drop (j - i)) = true := by
  intro l
  induction l with
  | nil =>
    intro i j h
    by_cases hc : isPre pat [] = true
    · simpa using hc
    · rw [lastOccAux, if_neg hc] at h
      exact absurd h (by simp)
  | cons c rest ih =>
    intro i j h
    rw [lastOccAux] at h
    cases hrec : lastOccAux pat rest (i + 1) with
    | some j2 =>
      rw [hrec] at h
      simp only [Option.some.injEq] at h
      subst h
      have hge := lastOccAux_ge_start rest (i + 1) j2 hrec
      have hi := ih (i + 1) j2 hrec
      have heq : j2 - i = (j2 - (i + 1)) + 1 := by omega
      rw [heq]
      simpa using hi
    | none =>
      rw [hrec] at h
      by_cases hc : isPre pat (c :: rest) = true
      · rw [if_pos hc] at h
        simp only [Option.some.injEq] at h
        subst h
        simpa using hc
      · rw [if_neg hc] at h
        exact absurd h (by simp)

theorem lastOccAux_maximal {pat : Chars} (hp : pat ≠ []) :
    ∀ (l : Chars) (m i : Nat), isPre pat (l.drop m) = true →
      ∃ j, lastOccAux pat l i = some j ∧ i + m ≤ j := by
  intro l
  induction l with
  | nil =>
    intro m i h
    rw [List.drop_nil] at h
    cases pat with
    | nil => exact absurd rfl hp
    | cons c cs => simp [isPre] at h
  | cons c rest ih =>
    intro m i h
    cases m with
    | zero =>
      cases hrec : lastOccAux pat rest (i + 1) with
      | some j2 =>
        have := lastOccAux_ge_start rest (i + 1) j2 hrec
        exact ⟨j2, by rw [lastOccAux, hrec], by omega⟩
      | none =>
        refine ⟨i, ?_, by omega⟩
        rw [lastOccAux, hrec]
        rw [List.drop_zero] at h
        rw [if_pos h]
    | succ m2 =>
      have h2 : isPre pat (rest.drop m2) = true := by simpa using h
      obtain ⟨j, hj, hge⟩ := ih m2 (i + 1) h2
      refine ⟨j, by rw [lastOccAux, hj], by omega⟩

theorem rsplitOnce_some_eq {pat l a b : Chars}
    (h : rsplitOnce pat l = some (a, b)) : l = a ++ pat ++ b := by
  simp only [rsplitOnce] at h
  cases hlo : lastOccAux pat l 0 with
  | none => rw [hlo] at h; exact absurd h (by simp)
  | some j =>
    rw [hlo] at h
    simp only [Option.some.injEq, Prod.mk.injEq] at h
    have hpre := lastOccAux_isPre l 0 j hlo
    simp only [Nat.sub_zero] at hpre
    have hdropeq := isPre_eq_append hpre
    have : l = l.take j ++ l.drop j := (List.take_append_drop j l).symm
    rw [← h.1, ← h.2]
    calc l = l.take j ++ l.drop j := this
    _ = l.take j ++ (pat ++ (l.drop j).drop pat.length) := by rw [← hdropeq]
    _ = l.take j ++ pat ++ l.drop (j + pat.length) := by
        rw [List.drop_drop]
        simp [List.append_assoc, Nat.add_comm]

theorem rsplitOnce_ge {pat l : Chars} {m : Nat} (hp : pat ≠ [])
    (h : isPre pat (l.drop m) = true) :
    ∃ a b, rsplitOnce pat l = some (a, b) ∧ l = a ++ pat ++ b ∧ m ≤ a.length := by
  obtain ⟨j, hj, hge⟩ := lastOccAux_maximal hp l m 0 h
  have hpre := lastOccAux_isPre l 0 j hj
  simp only [Nat.sub_zero] at hpre
  have hjle : j ≤ l.length := by
    have h1 := isPre_length hpre
    have h2 : (l.drop j).length = l.length - j := by simp
    have hplen : 0 < pat.length := by
      cases pat with
      | nil => exact absurd rfl hp
      | cons c cs => simp
    omega
  refine ⟨l.take j, l.drop (j + pat.length), by simp [rsplitOnce, hj], ?_, ?_⟩
  · exact rsplitOnce_some_eq (by simp [rsplitOnce, hj])
  · rw [List.length_take]
    omega

theorem splice_of_rsplit_some {pat ins l a b : Chars}
    (h : rsplitOnce pat l = some (a, b)) :
    spliceAfterLastL pat ins l = a ++ pat ++ '\n' :: ins ++ b := by
  simp [spliceAfterLastL, h]

theorem splice_of_rsplit_none {pat ins l : Chars}
    (h : rsplitOnce pat l = none) :
    spliceAfterLastL pat ins l = l ++ '\n' :: ins := by
  simp [spliceAfterLastL, h]

/-! ## C2: the Model Client never raises and falls back on every failure -/

/-- C2: query_ollama returns the "response" text verbatim exactly when the
HTTP POST succeeds with a non-empty response field; in every other case —
empty or missing field, connection error, timeout, non-2xx HTTP status,
JSON decode failure, or any other exception — it returns
generate_mock_investment_advice on the same prompt, and it never raises
(it is a total function of the observed outcome). -/
theorem C2_query_ollama_cases
    (prompt : String) (sampled : List String) (rid : Nat) (curDate : String) :
    (∀ r : String, r ≠ "" →
      queryOllama (.success (some r)) prompt sampled rid curDate = r) ∧
    queryOllama (.success (some "")) prompt sampled rid curDate
      = mockAdvice prompt sampled rid curDate ∧
    queryOllama (.success none) prompt sampled rid curDate
      = mockAdvice prompt sampled rid curDate ∧
    queryOllama .connError prompt sampled rid curDate
      = mockAdvice prompt sampled rid curDate ∧
    queryOllama .timeout prompt sampled rid curDate
      = mockAdvice prompt sampled rid curDate ∧
    queryOllama .httpError prompt sampled rid curDate
      = mockAdvice prompt sampled rid curDate ∧
    queryOllama .jsonError prompt sampled rid curDate
      = mockAdvice prompt sampled rid curDate ∧
    queryOllama .otherError prompt sampled rid curDate
      = mockAdvice prompt sampled rid curDate := by
  refine ⟨?_, rfl, rfl, rfl, rfl, rfl, rfl, rfl⟩
  intro r hr
  have : r.data ≠ [] := by
    intro hd
    exact hr (by cases r; simp_all)
  simp [queryOllama, this]

theorem C2_witness :
    queryOllama (.success (some "Buy index funds.")) "p" [] 7 "d" = "Buy index funds." :=
  (C2_query_ollama_cases "p" [] 7 "d").1 "Buy index funds." (by decide)

/-! ## C6: profile money invariants at validation time -/

/-- C6: a profile submission is accepted only when expenses ≤ income and
savings ≤ income − expenses; a violation of either is rejected with the
corresponding message and the store is left unchanged. -/
theorem C6_profile_invariants (p : ProfileMoney) (store : List ProfileMoney) :
    (validateProfile p = none →
      p.monthly_expenses ≤ p.monthly_income ∧
      p.monthly_savings ≤ p.monthly_income - p.monthly_expenses) ∧
    (0 ≤ p.monthly_income → 0 ≤ p.monthly_expenses → 0 ≤ p.monthly_savings →
      p.monthly_income < p.monthly_expenses → validateProfile p = some expErrMsg) ∧
    (0 ≤ p.monthly_income → 0 ≤ p.monthly_expenses → 0 ≤ p.monthly_savings →
      p.monthly_expenses ≤ p.monthly_income →
      p.monthly_income - p.monthly_expenses < p.monthly_savings →
      validateProfile p = some savErrMsg) ∧
    (validateProfile p ≠ none → (submitProfile store p).1 = store) := by
  refine ⟨?_, ?_, ?_, ?_⟩
  · intro h
    unfold validateProfile fieldErr formClean modelClean at h
    split_ifs at h <;> simp_all <;> constructor <;> linarith
  · intro h1 h2 h3 hlt
    unfold validateProfile fieldErr formClean modelClean
    split_ifs <;> first | rfl | (exfalso; linarith)
  · intro h1 h2 h3 hle hsav
    have hsavpos : p.monthly_savings ≠ 0 := by
      intro hz
      rw [hz] at hsav
      linarith
    unfold validateProfile fieldErr formClean modelClean
    split_ifs with w1 w2 w3 w4 w5 w6 w7 w8 <;>
      first
        | rfl
        | (exfalso; linarith)
        | skip
    all_goals simp_all
    all_goals linarith
  · intro h
    unfold submitProfile
    cases hv : validateProfile p with
    | none => exact absurd hv h
    | some e => simp

theorem C6_witness :
    validateProfile ⟨50000, 30000, 15000⟩ = none ∧
    validateProfile ⟨1, 2, 0⟩ = some expErrMsg ∧
    validateProfile ⟨5, 2, 4⟩ = some savErrMsg ∧
    (submitProfile [] ⟨1, 2, 0⟩).1 = [] := by
  refine ⟨?_, ?_, ?_, ?_⟩
  · norm_num [validateProfile, fieldErr, formClean, modelClean]
  · exact (C6_profile_invariants ⟨1, 2, 0⟩ []).2.1 (by norm_num) (by norm_num)
      (by norm_num) (by norm_num)
  · exact (C6_profile_invariants ⟨5, 2, 4⟩ []).2.2.1 (by norm_num) (by norm_num)
      (by norm_num) (by norm_num) (by norm_num)
  · exact (C6_profile_invariants ⟨1, 2, 0⟩ []).2.2.2
      (by rw [(C6_profile_invariants ⟨1, 2, 0⟩ []).2.1 (by norm_num) (by norm_num)
        (by norm_num) (by norm_num)]; simp)

/-! ## C7: chat endpoint error mapping -/

/-- C7 counterexample: a malformed request body is answered with status 500
— json.loads raises json.JSONDecodeError, which only the generic
`except Exception` handler catches — not with status 400 as claimed. -/
theorem C7_counterexample :
    statusOf (chatWithAdvisor [] 0 .malformed none .connError [] 0 "" none "" 0).1 = 500 ∧
    statusOf (chatWithAdvisor [] 0 .malformed none .connError [] 0 "" none "" 0).1 ≠ 400 := by
  constructor
  · rfl
  · decide

/-- C7 (amended): chat_with_advisor error mapping: a malformed request body
yields status 500 (the JSON parse error is caught by the generic handler);
an empty (after stripping) message yields 400; a missing financial profile
yields the not-found error with status 404; any other uncaught exception
during orchestration yields 500 carrying the message detail; otherwise a
JSON result with response_html, raw_response and timestamp is returned. -/
theorem C7_chat_error_mapping (msgs : List ChatMsg) (uid : Nat) (body : ChatBody)
    (profile : Option ProfileCtx) (net : OllamaOutcome) (sampled : List String)
    (rid : Nat) (curDate : String) (orchExc : Option String)
    (nowIso : String) (tsNow : Nat) :
    (body = .malformed →
      (chatWithAdvisor msgs uid body profile net sampled rid curDate orchExc nowIso tsNow).1
        = .err 500 "Expecting value: line 1 column 1 (char 0)") ∧
    (∀ m, body = .parsed m → trimL ((m.getD "").data) = [] →
      (chatWithAdvisor msgs uid body profile net sampled rid curDate orchExc nowIso tsNow).1
        = .err 400 "Message cannot be empty") ∧
    (∀ m, body = .parsed m → trimL ((m.getD "").data) ≠ [] → profile = none →
      (chatWithAdvisor msgs uid body profile net sampled rid curDate orchExc nowIso tsNow).1
        = .err 404 "Financial profile not found") ∧
    (∀ m prof e, body = .parsed m → trimL ((m.getD "").data) ≠ [] → profile = some prof →
      orchExc = some e →
      (chatWithAdvisor msgs uid body profile net sampled rid curDate orchExc nowIso tsNow).1
        = .err 500 e) ∧
    (∀ m prof, body = .parsed m → trimL ((m.getD "").data) ≠ [] → profile = some prof →
      orchExc = none →
      ∃ html raw,
        (chatWithAdvisor msgs uid body profile net sampled rid curDate orchExc nowIso tsNow).1
          = .ok ⟨html, raw, nowIso⟩) := by
  refine ⟨?_, ?_, ?_, ?_, ?_⟩
  · intro hb; subst hb; rfl
  · intro m hb he
    subst hb
    simp [chatWithAdvisor, he]
  · intro m hb hne hp
    subst hb; subst hp
    simp [chatWithAdvisor, hne]
  · intro m prof e hb hne hp hexc
    subst hb; subst hp; subst hexc
    simp [chatWithAdvisor, hne]
  · intro m prof hb hne hp hexc
    subst hb; subst hp; subst hexc
    simp [chatWithAdvisor, hne]

theorem C7_witness :
    (chatWithAdvisor [] 3 (.parsed (some "  ")) none .connError [] 0 "" none "" 0).1
      = .err 400 "Message cannot be empty" ∧
    (chatWithAdvisor [] 3 (.parsed (some "hi")) none .connError [] 0 "" none "" 0).1
      = .err 404 "Financial profile not found" := by
  constructor
  · exact (C7_chat_error_mapping [] 3 (.parsed (some "  ")) none .connError [] 0 "" none
      "" 0).2.1 (some "  ") rfl (by decide)
  · exact (C7_chat_error_mapping [] 3 (.parsed (some "hi")) none .connError [] 0 "" none
      "" 0).2.2.1 (some "hi") rfl (by decide) rfl

/-! ## C10: missing profile leaves the chat state unchanged -/

/-- C10: a well-formed chat request from a user without a FinancialProfile
is answered with the not-found error and persists no ChatMessage row —
neither the incoming user message nor an advisor message — because the
user message is saved only after the profile lookup succeeds. -/
theorem C10_no_profile_no_rows (msgs : List ChatMsg) (uid : Nat) (m : Option String)
    (net : OllamaOutcome) (sampled : List String) (rid : Nat) (curDate : String)
    (orchExc : Option String) (nowIso : String) (tsNow : Nat)
    (hm : trimL ((m.getD "").data) ≠ []) :
    chatWithAdvisor msgs uid (.parsed m) none net sampled rid curDate orchExc nowIso tsNow
      = (.err 404 "Financial profile not found", msgs) := by
  simp [chatWithAdvisor, hm]

theorem C10_witness :
    chatWithAdvisor [⟨7, "user", "old", 1⟩] 7 (.parsed (some "what now?")) none
        .connError ["stocks"] 1234 "May 05, 2025" none "2025-05-05T10:00:00" 2
      = (.err 404 "Financial profile not found", [⟨7, "user", "old", 1⟩]) :=
  C10_no_profile_no_rows [⟨7, "user", "old", 1⟩] 7 (some "what now?") .connError
    ["stocks"] 1234 "May 05, 2025" none "2025-05-05T10:00:00" 2 (by decide)

/-! ## C8: history ordering -/

/-- C8 counterexample: two chat rows may carry the same auto_now_add
timestamp, and then the retrieved history is not strictly increasing (and
likewise two advice rows defeat strict decrease). -/
theorem C8_counterexample :
    ¬ (List.Pairwise (fun a b : HistEntry => a.ts < b.ts)
        (getChatHistory [⟨0, "user", "a", 5⟩, ⟨0, "advisor", "b", 5⟩] 0) ∧
       List.Pairwise (fun a b : AdviceRec => a.createdAt > b.createdAt)
        (adviceHistory [⟨0, "t", "c", 5⟩, ⟨0, "t", "d", 5⟩] 0)) := by
  intro h
  exact absurd h.1 (by decide)

/-- C8 (amended): chat history retrieval returns the user's messages in
non-decreasing timestamp order — strictly increasing whenever the user's
message timestamps are pairwise distinct — and advice history returns the
user's records in non-increasing creation-time order — strictly decreasing
whenever the creation times are pairwise distinct. -/
theorem C8_history_order (msgs : List ChatMsg) (recs : List AdviceRec) (uid : Nat) :
    List.Pairwise (fun a b : HistEntry => a.ts ≤ b.ts) (getChatHistory msgs uid) ∧
    ((msgs.filter (fun m => m.userId == uid)).Pairwise (fun a b => a.ts ≠ b.ts) →
      List.Pairwise (fun a b : HistEntry => a.ts < b.ts) (getChatHistory msgs uid)) ∧
    List.Pairwise (fun a b : AdviceRec => b.createdAt ≤ a.createdAt) (adviceHistory recs uid) ∧
    ((recs.filter (fun r => r.userId == uid)).Pairwise
        (fun a b => a.createdAt ≠ b.createdAt) →
      List.Pairwise (fun a b : AdviceRec => a.createdAt > b.createdAt)
        (adviceHistory recs uid)) := by
  have hsortM : List.Pairwise (fun a b : ChatMsg => a.ts ≤ b.ts)
      (List.insertionSort (fun a b => a.ts ≤ b.ts)
        (msgs.filter (fun m => m.userId == uid))) :=
    List.sorted_insertionSort _ _
  have hsortA : List.Pairwise (fun a b : AdviceRec => b.createdAt ≤ a.createdAt)
      (adviceHistory recs uid) :=
    List.sorted_insertionSort _ _
  refine ⟨?_, ?_, hsortA, ?_⟩
  · unfold getChatHistory
    rw [List.pairwise_map]
    exact hsortM
  · intro hdist
    have hperm := List.perm_insertionSort (fun a b : ChatMsg => a.ts ≤ b.ts)
      (msgs.filter (fun m => m.userId == uid))
    have hdist2 : List.Pairwise (fun a b : ChatMsg => a.ts ≠ b.ts)
        (List.insertionSort (fun a b => a.ts ≤ b.ts)
          (msgs.filter (fun m => m.userId == uid))) :=
      (hperm.pairwise_iff (fun h he => h he.symm)).mpr hdist
    unfold getChatHistory
    rw [List.pairwise_map]
    exact (hsortM.and hdist2).imp (fun h => Nat.lt_of_le_of_ne h.1 h.2)
  · intro hdist
    have hperm := List.perm_insertionSort (fun a b : AdviceRec => b.createdAt ≤ a.createdAt)
      (recs.filter (fun r => r.userId == uid))
    have hdist2 : List.Pairwise (fun a b : AdviceRec => a.createdAt ≠ b.createdAt)
        (adviceHistory recs uid) :=
      (hperm.pairwise_iff (fun h he => h he.symm)).mpr hdist
    exact (hsortA.and hdist2).imp (fun h => Nat.lt_of_le_of_ne h.1 (Ne.symm h.2))

theorem C8_witness :
    List.Pairwise (fun a b : HistEntry => a.ts < b.ts)
      (getChatHistory [⟨0, "user", "a", 9⟩, ⟨0, "advisor", "b", 4⟩, ⟨1, "user", "c", 1⟩] 0) :=
  (C8_history_order [⟨0, "user", "a", 9⟩, ⟨0, "advisor", "b", 4⟩, ⟨1, "user", "c", 1⟩]
    [] 0).2.1 (by decide)

/-! ## C9: the wrapper prefix and suffix are unconditional -/

/-- C9: format_investment_advice output always begins with the exact
wrapper opening `<div class="advice-content">` and ends with `</div>`;
consequently the orchestrators' strip check fires on every output and the
persisted content is exactly the inner formatted content, without the
outer wrapper element. -/
theorem C9_wrapper_strip (s : String) :
    isPre wrapOpenS.data (fmtAdvice s).data = true ∧
    endsWithL "</div>".data (fmtAdvice s).data = true ∧
    (stripWrapper (fmtAdvice s)).data = fmtInnerL s.data := by
  have hdata : (fmtAdvice s).data
      = wrapOpenS.data ++ fmtInnerL s.data ++ "</div>".data := rfl
  have h1 : isPre wrapOpenS.data (fmtAdvice s).data = true := by
    rw [hdata, List.append_assoc]
    exact isPre_append_self _ _
  have h2 : endsWithL "</div>".data (fmtAdvice s).data = true := by
    unfold endsWithL
    rw [hdata, List.reverse_append]
    exact isPre_append_self _ _
  refine ⟨h1, h2, ?_⟩
  unfold stripWrapper
  rw [if_pos (by rw [h1, h2]; rfl)]
  show ((fmtAdvice s).data.take ((fmtAdvice s).data.length - 6)).drop 28 = _
  rw [hdata]
  have hlen : (wrapOpenS.data ++ fmtInnerL s.data ++ "</div>".data).length - 6
      = (wrapOpenS.data ++ fmtInnerL s.data).length := by
    rw [List.length_append (wrapOpenS.data ++ fmtInnerL s.data) "</div>".data]
    have h6 : ("</div>".data).length = 6 := by decide
    rw [h6]
    omega
  rw [hlen, List.take_left]
  have h28 : 28 = (wrapOpenS.data).length := by decide
  rw [h28, List.drop_left]

/-! ## Helper lemmas for the Fallback Generator claims -/

theorem sdata_append (a b : String) : (a ++ b).data = a.data ++ b.data := rfl

theorem occurs_of_isPre {pat l : Chars} (h : isPre pat l = true) :
    occurs pat l = true :=
  occurs_of_occAt (p := 0) (by simpa using h)

theorem foldl_join_data (sep : String) :
    ∀ (rest : List String) (acc : String),
      ∃ t, (rest.foldl (fun a y => a ++ sep ++ y) acc).data = acc.data ++ t := by
  intro rest
  induction rest with
  | nil => intro acc; exact ⟨[], by simp⟩
  | cons y ys ih =>
    intro acc
    obtain ⟨t, ht⟩ := ih (acc ++ sep ++ y)
    refine ⟨sep.data ++ y.data ++ t, ?_⟩
    rw [List.foldl_cons, ht, sdata_append, sdata_append]
    simp [List.append_assoc]

theorem intercalateS_head (sep x : String) (rest : List String) :
    ∃ t, (intercalateS sep (x :: rest)).data = x.data ++ t := by
  simpa [intercalateS] using foldl_join_data sep rest x

theorem intercalateS_two (sep x y : String) (rest : List String) :
    ∃ t, (intercalateS sep (x :: y :: rest)).data
      = x.data ++ (sep.data ++ (y.data ++ t)) := by
  obtain ⟨t, ht⟩ := foldl_join_data sep rest (x ++ sep ++ y)
  refine ⟨t, ?_⟩
  show (List.foldl (fun a y => a ++ sep ++ y) (x ++ sep ++ y) rest).data = _
  rw [ht, sdata_append, sdata_append]
  simp [List.append_assoc]

theorem occurs_splice_ins {t ins : Chars} (pat l : Chars)
    (h : occurs t ins = true) :
    occurs t (spliceAfterLastL pat ins l) = true := by
  have h1 : occurs t ('\n' :: ins) = true := by
    simpa using occurs_append_right ['\n'] h
  cases hsp : rsplitOnce pat l with
  | some ab =>
    obtain ⟨a, b⟩ := ab
    rw [splice_of_rsplit_some hsp]
    exact occurs_append_left b (occurs_append_right (a ++ pat) h1)
  | none =>
    rw [splice_of_rsplit_none hsp]
    exact occurs_append_right l h1

theorem occurs_splice_keep {t pat l : Chars} {p k : Nat} (ins : Chars)
    (hp : pat ≠ []) (h1 : isPre t (l.drop p) = true)
    (h2 : isPre pat (l.drop k) = true) (hle : p + t.length ≤ k) :
    occurs t (spliceAfterLastL pat ins l) = true := by
  obtain ⟨a, b, hsp, heq, hka⟩ := rsplitOnce_ge hp h2
  rw [splice_of_rsplit_some hsp]
  have hTake : a = l.take a.length := by
    conv_rhs => rw [heq]
    rw [List.append_assoc, List.take_left]
  have hocc : occurs t a = true := by
    rw [hTake]
    exact occurs_take_of_occAt h1 (by omega)
  exact occurs_append_left b (occurs_append_left ('\n' :: ins) (occurs_append_left pat hocc))

/-- Transport an occurrence in `l` into the `take j l ++ X` shape, given that
the occurrence ends before `j`. -/
theorem isPre_drop_take_append {t l : Chars} {p j : Nat} (X : Chars)
    (ht : t ≠ []) (h : isPre t (l.drop p) = true) (hj : p + t.length ≤ j) :
    isPre t (((l.take j) ++ X).drop p) = true := by
  have htlen : 0 < t.length := by
    cases t with
    | nil => exact absurd rfl ht
    | cons c cs => simp
  have hpl : p < l.length := by
    by_contra hcon
    rw [List.drop_eq_nil_of_le (by omega)] at h
    cases t with
    | nil => exact absurd rfl ht
    | cons c cs => simp [isPre] at h
  have h1 : isPre t ((l.take j).drop p) = true := by
    rw [List.drop_take]
    exact isPre_take h (by omega)
  have hple : p ≤ (l.take j).length := by
    rw [List.length_take]
    omega
  rw [List.drop_append_eq_append_drop, Nat.sub_eq_zero_of_le hple, List.drop_zero]
  exact isPre_extend h1 X

theorem isPre_drop_cons {t X : Chars} {m : Nat} {c : Char}
    (h : isPre t (X.drop m) = true) :
    isPre t ((c :: X).drop (m + 1)) = true := by
  simpa using h

theorem isPre_drop_append_left {t u v : Chars} {m : Nat}
    (h : isPre t (u.drop m) = true) (hm : m ≤ u.length) :
    isPre t ((u ++ v).drop m) = true := by
  rw [List.drop_append_eq_append_drop, Nat.sub_eq_zero_of_le hm, List.drop_zero]
  exact isPre_extend h v

theorem uniqueRecNQ_starts (rid : Nat) :
    isPre "<p".data (uniqueRecNQ rid).data = true := by
  unfold uniqueRecNQ
  have h6 : rid % 6 = 0 ∨ rid % 6 = 1 ∨ rid % 6 = 2 ∨ rid % 6 = 3 ∨
      rid % 6 = 4 ∨ rid % 6 = 5 := by omega
  rcases h6 with h | h | h | h | h | h <;>
    rw [h] <;>
    exact isPre_extend (isPre_extend (by decide) _) _

/-- Structural facts about the question-branch output: non-empty, contains
an h3 heading and a paragraph. -/
theorem questionOut_props (risk : Risk) (mt : List String) (curDate : String) (rid : Nat) :
    (intercalateS "\n" (questionParts risk mt curDate rid)).data ≠ [] ∧
    occurs "<h3".data (intercalateS "\n" (questionParts risk mt curDate rid)).data = true ∧
    occurs "<p".data (intercalateS "\n" (questionParts risk mt curDate rid)).data = true := by
  have hshape : questionParts risk mt curDate rid
      = ("<h3 class=\"advice-heading\">Financial Advice - " ++ curDate ++ "</h3>") ::
        ("<p class=\"advice-paragraph\">Thank you for your question about " ++
          intercalateS ", " mt ++ ". Here\x27s my perspective:</p>") ::
        ((mt.map (topicBlock risk)).flatten ++
         ["<h4>Unique Strategy to Consider</h4>", uniqueRecsQ.getD (rid % 6) ""]) := rfl
  rw [hshape]
  obtain ⟨t, ht⟩ := intercalateS_two "\n"
    ("<h3 class=\"advice-heading\">Financial Advice - " ++ curDate ++ "</h3>")
    ("<p class=\"advice-paragraph\">Thank you for your question about " ++
      intercalateS ", " mt ++ ". Here\x27s my perspective:</p>")
    ((mt.map (topicBlock risk)).flatten ++
     ["<h4>Unique Strategy to Consider</h4>", uniqueRecsQ.getD (rid % 6) ""])
  rw [ht]
  have hp0 : isPre "<h3".data
      (("<h3 class=\"advice-heading\">Financial Advice - " ++ curDate ++ "</h3>").data)
      = true := by
    show isPre "<h3".data
      (("<h3 class=\"advice-heading\">Financial Advice - ".data ++ curDate.data) ++
        "</h3>".data) = true
    exact isPre_extend (isPre_extend (by decide) curDate.data) "</h3>".data
  have hp1 : isPre "<p".data
      (("<p class=\"advice-paragraph\">Thank you for your question about " ++
        intercalateS ", " mt ++ ". Here\x27s my perspective:</p>").data) = true := by
    show isPre "<p".data
      (("<p class=\"advice-paragraph\">Thank you for your question about ".data ++
        (intercalateS ", " mt).data) ++ ". Here\x27s my perspective:</p>".data) = true
    exact isPre_extend (isPre_extend (by decide) _) _
  refine ⟨?_, ?_, ?_⟩
  · intro hnil
    have := isPre_extend hp0 ("\n".data ++
      ((("<p class=\"advice-paragraph\">Thank you for your question about " ++
        intercalateS ", " mt ++ ". Here\x27s my perspective:</p>")).data ++ t))
    rw [hnil] at this
    simp [isPre] at this
  · exact occurs_append_left _ (occurs_of_isPre hp0)
  · refine occurs_append_right _ ?_
    refine occurs_append_right "\n".data ?_
    exact occurs_append_left t (occurs_of_isPre hp1)

/-- The custom-sections text always contains a closing paragraph tag. -/
theorem customSections_close_p (mtF : List String) (curDate : String) :
    occurs "</p>".data (intercalateS "\n" (customSections mtF curDate)).data = true := by
  have hshape : customSections mtF curDate
      = ("<p class=\"advice-paragraph\"><em>Investment outlook as of " ++ curDate ++
          "</em></p>") :: (mtF.map (fun t =>
            if t == "retirement" then
              ["<h3 class=\"advice-heading\">Retirement Focus</h3>",
               "<p>For retirement planning, consider a systematic withdrawal plan (SWP) from your mutual fund investments during retirement years. This provides regular income while keeping the remaining corpus invested.</p>"]
            else if t == "tax" then
              ["<h3 class=\"advice-heading\">Tax Optimization</h3>",
               "<p>Consider tax-loss harvesting by selling investments that have experienced losses to offset capital gains tax on your profitable investments.</p>"]
            else [])).flatten := rfl
  rw [hshape]
  obtain ⟨t, ht⟩ := intercalateS_head "\n"
    ("<p class=\"advice-paragraph\"><em>Investment outlook as of " ++ curDate ++ "</em></p>") _
  rw [ht]
  refine occurs_append_left t ?_
  show occurs "</p>".data
    (("<p class=\"advice-paragraph\"><em>Investment outlook as of ".data ++
      curDate.data) ++ "</em></p>".data) = true
  exact occurs_append_right _ (by decide)

/-- Data-level shape of the non-question assembly. -/
theorem nonQ_data (risk : Risk) (mtF : List String) (rid : Nat) (curDate : String) :
    (nonQuestionAdvice risk mtF rid curDate).data
      = spliceAfterLastL "</p>".data (uniqueRecNQ rid).data
          (if mtF.isEmpty then (templateFor risk).data
           else spliceAfterLastL "</ul>".data
             (intercalateS "\n" (customSections mtF curDate)).data
             (templateFor risk).data) := by
  unfold nonQuestionAdvice
  cases mtF <;> rfl

/-- Structural facts about the non-question output: non-empty, contains the
h2 heading of the selected risk template and a paragraph. -/
theorem nonQuestionOut_props (risk : Risk) (mtF : List String) (rid : Nat)
    (curDate : String) :
    (nonQuestionAdvice risk mtF rid curDate).data ≠ [] ∧
    occurs "<h2".data (nonQuestionAdvice risk mtF rid curDate).data = true ∧
    occurs "<p".data (nonQuestionAdvice risk mtF rid curDate).data = true := by
  have hdata := nonQ_data risk mtF rid curDate
  have hp : occurs "<p".data (nonQuestionAdvice risk mtF rid curDate).data = true := by
    rw [hdata]
    exact occurs_splice_ins _ _ (occurs_of_isPre (uniqueRecNQ_starts rid))
  have hh2 : occurs "<h2".data (nonQuestionAdvice risk mtF rid curDate).data = true := by
    rw [hdata]
    by_cases hm : mtF.isEmpty
    · rw [if_pos hm]
      cases risk with
      | conservative =>
        exact occurs_splice_keep (p := 1) (k := 185) _ (by decide) (by decide)
          (by decide) (by decide)
      | moderate =>
        exact occurs_splice_keep (p := 1) (k := 191) _ (by decide) (by decide)
          (by decide) (by decide)
      | aggressive =>
        exact occurs_splice_keep (p := 1) (k := 204) _ (by decide) (by decide)
          (by decide) (by decide)
    · rw [if_neg hm]
      set custom := (intercalateS "\n" (customSections mtF curDate)).data with hcustom
      have hcp := customSections_close_p mtF curDate
      rw [← hcustom] at hcp
      obtain ⟨k0, hk0, hk0b⟩ := occurs_exists_occAt hcp
      -- indices of "<h2" and of an "</ul>" occurrence in each template
      have main : ∀ (τ : Chars), isPre "<h2".data (τ.drop 1) = true →
          ∀ (ku : Nat), isPre "</ul>".data (τ.drop ku) = true → 4 ≤ ku →
          occurs "<h2".data
            (spliceAfterLastL "</p>".data (uniqueRecNQ rid).data
              (spliceAfterLastL "</ul>".data custom τ)) = true := by
        intro τ hh2τ ku hku hku4
        obtain ⟨a, b, hsp, heq, hka⟩ := rsplitOnce_ge (by decide) hku
        rw [splice_of_rsplit_some hsp]
        have hTake : a = τ.take a.length := by
          conv_rhs => rw [heq]
          rw [List.append_assoc, List.take_left]
        have hshape2 : ((a ++ "</ul>".data) ++ '\n' :: custom) ++ b
            = (a ++ "</ul>".data) ++ ('\n' :: (custom ++ b)) := by
          rw [List.append_assoc]
          rfl
        rw [hshape2]
        have h1 : isPre "<h2".data
            (((a ++ "</ul>".data) ++ ('\n' :: (custom ++ b))).drop 1) = true := by
          rw [List.append_assoc, hTake]
          exact isPre_drop_take_append _ (by decide) hh2τ (by
            have : ("<h2".data).length = 3 := by decide
            omega)
        have h2 : isPre "</p>".data
            (((a ++ "</ul>".data) ++ ('\n' :: (custom ++ b))).drop
              ((a ++ "</ul>".data).length + (k0 + 1))) = true := by
          refine occAt_append_right (a ++ "</ul>".data) ?_
          refine isPre_drop_cons ?_
          exact isPre_drop_append_left hk0 (by omega)
        refine occurs_splice_keep _ (by decide) h1 h2 ?_
        have h3 : ("<h2".data).length = 3 := by decide
        have h5 : ("</ul>".data).length = 5 := by decide
        rw [List.length_append, h5]
        omega
      cases risk with
      | conservative => exact main _ (by decide) 488 (by decide) (by decide)
      | moderate => exact main _ (by decide) 517 (by decide) (by decide)
      | aggressive => exact main _ (by decide) 530 (by decide) (by decide)
  refine ⟨?_, hh2, hp⟩
  · intro hnil
    rw [hnil] at hp
    simp [occurs, isPre] at hp

/-! ## C4: the Fallback Generator is total and structurally well-formed -/

/-- C4: generate_mock_investment_advice is total (a function of its prompt
and the explicit randomness parameters — it never raises), never returns
the empty string, and its output contains at least one heading element
(an h2 or h3 opening tag) and at least one paragraph element. -/
theorem C4_mock_never_empty (prompt : String) (sampled : List String) (rid : Nat)
    (curDate : String) :
    mockAdvice prompt sampled rid curDate ≠ "" ∧
    (occursS "<h2" (mockAdvice prompt sampled rid curDate) = true ∨
     occursS "<h3" (mockAdvice prompt sampled rid curDate) = true) ∧
    occursS "<p" (mockAdvice prompt sampled rid curDate) = true := by
  by_cases hq : isQuestion prompt = true
  · have hout : mockAdvice prompt sampled rid curDate
        = intercalateS "\n" (questionParts (riskOf (toLowerS prompt))
            (if (mentionedTopics (toLowerS prompt)).isEmpty then sampled
             else mentionedTopics (toLowerS prompt)) curDate rid) := by
      simp [mockAdvice, hq]
    obtain ⟨hne, hh3, hp⟩ := questionOut_props (riskOf (toLowerS prompt))
      (if (mentionedTopics (toLowerS prompt)).isEmpty then sampled
       else mentionedTopics (toLowerS prompt)) curDate rid
    refine ⟨?_, Or.inr ?_, ?_⟩
    · intro h
      rw [hout] at h
      exact hne (congrArg String.data h)
    · show occurs "<h3".data (mockAdvice prompt sampled rid curDate).data = true
      rw [hout]
      exact hh3
    · show occurs "<p".data (mockAdvice prompt sampled rid curDate).data = true
      rw [hout]
      exact hp
  · have hq2 : isQuestion prompt = false := by
      cases h : isQuestion prompt with
      | false => rfl
      | true => exact absurd h hq
    have hout : mockAdvice prompt sampled rid curDate
        = nonQuestionAdvice (riskOf (toLowerS prompt))
            (if (mentionedTopics (toLowerS prompt)).isEmpty then sampled
             else mentionedTopics (toLowerS prompt)) rid curDate := by
      simp [mockAdvice, hq2]
    obtain ⟨hne, hh2, hp⟩ := nonQuestionOut_props (riskOf (toLowerS prompt))
      (if (mentionedTopics (toLowerS prompt)).isEmpty then sampled
       else mentionedTopics (toLowerS prompt)) rid curDate
    refine ⟨?_, Or.inl ?_, ?_⟩
    · intro h
      rw [hout] at h
      exact hne (congrArg String.data h)
    · show occurs "<h2".data (mockAdvice prompt sampled rid curDate).data = true
      rw [hout]
      exact hh2
    · show occurs "<p".data (mockAdvice prompt sampled rid curDate).data = true
      rw [hout]
      exact hp

/-- Occurrence preservation through the two non-question splices: a target
occurrence in the template that ends before an `</ul>` occurrence survives
the custom-section splice and the unique-strategy splice. -/
theorem splice2_keep (τ custom : Chars) (t : Chars) (ht : t ≠ [])
    (p : Nat) (hpt : isPre t (τ.drop p) = true)
    (ku : Nat) (hku : isPre "</ul>".data (τ.drop ku) = true)
    (hbound : p + t.length ≤ ku)
    (k0 : Nat) (hk0 : isPre "</p>".data (custom.drop k0) = true)
    (hk0b : k0 + 4 ≤ custom.length) (ins : Chars) :
    occurs t (spliceAfterLastL "</p>".data ins
      (spliceAfterLastL "</ul>".data custom τ)) = true := by
  obtain ⟨a, b, hsp, heq, hka⟩ := rsplitOnce_ge (by decide) hku
  rw [splice_of_rsplit_some hsp]
  have hTake : a = τ.take a.length := by
    conv_rhs => rw [heq]
    rw [List.append_assoc, List.take_left]
  have hshape2 : ((a ++ "</ul>".data) ++ '\n' :: custom) ++ b
      = (a ++ "</ul>".data) ++ ('\n' :: (custom ++ b)) := by
    rw [List.append_assoc]
    rfl
  rw [hshape2]
  have h1 : isPre t
      (((a ++ "</ul>".data) ++ ('\n' :: (custom ++ b))).drop p) = true := by
    rw [List.append_assoc, hTake]
    exact isPre_drop_take_append _ ht hpt (by omega)
  have h2 : isPre "</p>".data
      (((a ++ "</ul>".data) ++ ('\n' :: (custom ++ b))).drop
        ((a ++ "</ul>".data).length + (k0 + 1))) = true := by
    refine occAt_append_right (a ++ "</ul>".data) ?_
    refine isPre_drop_cons ?_
    exact isPre_drop_append_left hk0 (by omega)
  refine occurs_splice_keep _ (by decide) h1 h2 ?_
  have h5 : ("</ul>".data).length = 5 := by decide
  rw [List.length_append, h5]
  omega

/-- The conservative-template fixed-income allocation paragraph survives
into every non-question conservative output. -/
theorem consAllocation_occurs (mtF : List String) (rid : Nat) (curDate : String) :
    occurs "Fixed Income Investments (60-70%)".data
      (nonQuestionAdvice Risk.conservative mtF rid curDate).data = true := by
  have hdata := nonQ_data Risk.conservative mtF rid curDate
  rw [hdata]
  by_cases hm : mtF.isEmpty
  · rw [if_pos hm]
    exact occurs_splice_keep (p := 235) (k := 1306) _ (by decide) (by decide)
      (by decide) (by decide)
  · rw [if_neg hm]
    obtain ⟨k0, hk0, hk0b⟩ := occurs_exists_occAt (customSections_close_p mtF curDate)
    exact splice2_keep _ _ _ (by decide) 235 (by decide) 488 (by decide) (by decide)
      k0 hk0 hk0b _

/-! ## C5: conservative prompts and the fixed-income allocation paragraph -/

/-- C5 counterexample: the prompt "conservative?" contains the word
conservative, but it is question-phrased, so generate_mock_investment_advice
takes the question branch, whose conservative advice blocks never contain
the fixed-percentage allocation paragraph `Fixed Income Investments
(60-70%)` of the conservative template. -/
theorem C5_counterexample :
    occursS "conservative" (toLowerS "conservative?") = true ∧
    riskOf (toLowerS "conservative?") = Risk.conservative ∧
    occursS "Fixed Income Investments (60-70%)"
      (mockAdvice "conservative?" ["retirement", "debt"] 1234 "May 05, 2025") = false := by
  refine ⟨by decide, by decide, by decide⟩

/-- C5 (amended): a prompt whose lower-casing contains "conservative" is
always classified conservative; when the prompt is not question-phrased,
the output contains the conservative profile's fixed-percentage
fixed-income allocation paragraph. -/
theorem C5_conservative_allocation (prompt : String) (sampled : List String)
    (rid : Nat) (curDate : String)
    (hc : occursS "conservative" (toLowerS prompt) = true) :
    riskOf (toLowerS prompt) = Risk.conservative ∧
    (isQuestion prompt = false →
      occursS "Fixed Income Investments (60-70%)"
        (mockAdvice prompt sampled rid curDate) = true) := by
  have hrisk : riskOf (toLowerS prompt) = Risk.conservative := by
    unfold riskOf
    rw [if_pos]
    rw [Bool.or_eq_true]
    exact Or.inl hc
  refine ⟨hrisk, ?_⟩
  intro hq
  have hout : mockAdvice prompt sampled rid curDate
      = nonQuestionAdvice (riskOf (toLowerS prompt))
          (if (mentionedTopics (toLowerS prompt)).isEmpty then sampled
           else mentionedTopics (toLowerS prompt)) rid curDate := by
    simp [mockAdvice, hq]
  show occurs "Fixed Income Investments (60-70%)".data
    (mockAdvice prompt sampled rid curDate).data = true
  rw [hout, hrisk]
  exact consAllocation_occurs _ rid curDate

theorem C5_witness :
    riskOf (toLowerS "conservative growth plan") = Risk.conservative ∧
    occursS "Fixed Income Investments (60-70%)"
      (mockAdvice "conservative growth plan" [] 42 "May 05, 2025") = true := by
  have h := C5_conservative_allocation "conservative growth plan" [] 42 "May 05, 2025"
    (by decide)
  exact ⟨h.1, h.2 (by decide)⟩

/-! ## Character-class and scanning lemmas for the tokenizer round-trip -/

theorem takeWhile_append_stop {p : Char → Bool} {u v : Chars}
    (hu : ∀ c ∈ u, p c = true)
    (hv : ∀ c w, v = c :: w → p c = false) :
    (u ++ v).takeWhile p = u ∧ (u ++ v).dropWhile p = v := by
  induction u with
  | nil =>
    cases v with
    | nil => simp
    | cons c w =>
      have hc := hv c w rfl
      simp [List.takeWhile_cons, List.dropWhile_cons, hc]
  | cons a u2 ih =>
    have ha : p a = true := hu a (by simp)
    have ih2 := ih (fun c hc => hu c (by simp [hc]))
    simp [List.takeWhile_cons, List.dropWhile_cons, ha, ih2.1, ih2.2]

theorem nameChar_not_ws {c : Char} (h : isNameChar c = true) : isWsChar c = false := by
  cases hw : isWsChar c with
  | false => rfl
  | true =>
    exfalso
    have hc : c = ' ' ∨ c = '\t' ∨ c = '\n' ∨ c = '\r' ∨ c = '\x0b' ∨ c = '\x0c' := by
      simpa [isWsChar, or_assoc] using hw
    rcases hc with h1 | h1 | h1 | h1 | h1 | h1 <;> subst h1 <;> exact absurd h (by decide)

theorem nameChar_ne {c : Char} (h : isNameChar c = true) :
    c ≠ '<' ∧ c ≠ '>' ∧ c ≠ '/' ∧ c ≠ ' ' ∧ c ≠ '"' ∧ c ≠ '=' := by
  refine ⟨?_, ?_, ?_, ?_, ?_, ?_⟩ <;>
    (intro he; subst he; exact absurd h (by decide))

theorem attrChar_facts {c : Char} (h : isAttrNameChar c = true) :
    isWsChar c = false ∧ c ≠ '=' ∧ c ≠ '>' ∧ c ≠ '/' ∧ c ≠ '<' ∧ c ≠ '"' := by
  have h2 : (!(isWsChar c)) = true ∧ (c != '=') = true ∧ (c != '>') = true ∧
      (c != '/') = true ∧ (c != '<') = true ∧ (c != '"') = true := by
    simpa [isAttrNameChar, and_assoc] using h
  obtain ⟨hws, he, hg, hs, hl, hq⟩ := h2
  refine ⟨by simpa using hws, by simpa using he, by simpa using hg,
    by simpa using hs, by simpa using hl, by simpa using hq⟩

theorem toLowerL_id {l : Chars} (h : ∀ c ∈ l, c.toLower = c) : toLowerL l = l := by
  unfold toLowerL
  induction l with
  | nil => rfl
  | cons c rest ih =>
    simp only [List.map_cons]
    rw [h c (by simp), ih (fun d hd => h d (by simp [hd]))]

theorem flatten_serAttr_len_ge (attrs : List (Chars × Chars)) :
    attrs.length ≤ ((attrs.map serAttr).flatten).length := by
  induction attrs with
  | nil => simp
  | cons a as ih =>
    simp only [List.map_cons, List.flatten_cons, List.length_append, List.length_cons]
    have h1 : 1 ≤ (serAttr a).length := by
      unfold serAttr
      simp
    omega

theorem parseAttrsCore_ser (r0 : Chars) :
    ∀ (attrs : List (Chars × Chars)), (∀ a ∈ attrs, wfAttr a) →
    ∀ (acc : List (Chars × Chars)) (fuel : Nat), attrs.length < fuel →
      parseAttrsCore fuel
          (((attrs.map serAttr).flatten ++ '>' :: r0).dropWhile isWsChar) acc
        = some (acc.reverse ++ attrs, r0) := by
  intro attrs
  induction attrs with
  | nil =>
    intro _ acc fuel hf
    cases fuel with
    | zero => omega
    | succ n =>
      have hd : (([] : List Chars).flatten ++ '>' :: r0).dropWhile isWsChar
          = '>' :: r0 := by
        rw [show (([] : List Chars).flatten ++ '>' :: r0) = '>' :: r0 by simp]
        rw [List.dropWhile_cons, if_neg (by decide)]
      rw [show ((([] : List (Chars × Chars)).map serAttr).flatten ++ '>' :: r0)
        = ([] : List Chars).flatten ++ '>' :: r0 by simp, hd]
      rw [show parseAttrsCore (n + 1) ('>' :: r0) acc
        = some (acc.reverse, r0) by rw [parseAttrsCore, if_pos rfl]]
      simp
  | cons a as ih =>
    intro hw acc fuel hf
    cases fuel with
    | zero => omega
    | succ n =>
      obtain ⟨hne, hnm, hq, hlt⟩ := hw a (by simp)
      obtain ⟨c, a1, hc⟩ : ∃ c a1, a.1 = c :: a1 := by
        cases h1 : a.1 with
        | nil => exact absurd h1 hne
        | cons c a1 => exact ⟨c, a1, rfl⟩
      have hcattr : isAttrNameChar c = true := (hnm c (by rw [hc]; simp)).1
      obtain ⟨hcws, hce, hcg, hcs, hcl, hcq⟩ := attrChar_facts hcattr
      set W := (as.map serAttr).flatten ++ '>' :: r0 with hW
      have hshape : ((a :: as).map serAttr).flatten ++ '>' :: r0
          = ' ' :: (a.1 ++ ('=' :: '"' :: (a.2 ++ ('"' :: W)))) := by
        rw [hW]
        unfold serAttr
        simp [List.append_assoc]
      have hZ : a.1 ++ ('=' :: '"' :: (a.2 ++ ('"' :: W)))
          = c :: (a1 ++ ('=' :: '"' :: (a.2 ++ ('"' :: W)))) := by
        rw [hc, List.cons_append]
      have hdrop : ((' ' :: (a.1 ++ ('=' :: '"' :: (a.2 ++ ('"' :: W)))))).dropWhile isWsChar
          = c :: (a1 ++ ('=' :: '"' :: (a.2 ++ ('"' :: W)))) := by
        rw [List.dropWhile_cons, if_pos (by decide), hZ, List.dropWhile_cons,
          if_neg (by simp [hcws])]
      have htw : (a.1 ++ ('=' :: '"' :: (a.2 ++ ('"' :: W)))).takeWhile isAttrNameChar
            = a.1 ∧
          (a.1 ++ ('=' :: '"' :: (a.2 ++ ('"' :: W)))).dropWhile isAttrNameChar
            = '=' :: '"' :: (a.2 ++ ('"' :: W)) := by
        refine takeWhile_append_stop (fun d hd => (hnm d hd).1) ?_
        intro d w hdw
        simp only [List.cons.injEq] at hdw
        rw [← hdw.1]
        decide
      have hval : (a.2 ++ ('"' :: W)).takeWhile (· != '"') = a.2 ∧
          (a.2 ++ ('"' :: W)).dropWhile (· != '"') = '"' :: W := by
        refine takeWhile_append_stop ?_ ?_
        · intro d hd
          simp only [bne_iff_ne, ne_eq, decide_eq_true_eq]
          intro he
          exact hq (he ▸ hd)
        · intro d w hdw
          simp only [List.cons.injEq] at hdw
          rw [← hdw.1]
          decide
      have hlow : toLowerL a.1 = a.1 := toLowerL_id (fun d hd => (hnm d hd).2)
      rw [hshape, hdrop]
      rw [parseAttrsCore]
      rw [if_neg (by intro he; exact hcg he), if_neg (by intro he; exact hcs he)]
      simp only [← hZ, htw.1, htw.2, hlow]
      rw [if_neg hne]
      rw [show ('=' :: '"' :: (a.2 ++ ('"' :: W))).head? = some '=' from rfl]
      rw [if_pos rfl]
      rw [show ('=' :: '"' :: (a.2 ++ ('"' :: W))).tail = '"' :: (a.2 ++ ('"' :: W)) from rfl]
      rw [show ('"' :: (a.2 ++ ('"' :: W))).head? = some '"' from rfl]
      rw [if_pos rfl]
      simp only [List.tail_cons]
      rw [hval.1, hval.2]
      rw [show ('"' :: W).head? = some '"' from rfl, if_pos rfl, List.tail_cons]
      have hrec := ih (fun b hb => hw b (by simp [hb])) ((a.1, a.2) :: acc) n (by
        simp only [List.length_cons] at hf
        omega)
      rw [hrec]
      rw [List.reverse_cons, List.append_assoc]
      rfl

theorem parseTag_serO (nm : Chars) (attrs : List (Chars × Chars)) (r0 : Chars)
    (hn : okName nm) (hw : ∀ a ∈ attrs, wfAttr a) :
    parseTag (nm ++ ((attrs.map serAttr).flatten ++ '>' :: r0))
      = some (.tagO nm attrs, r0) := by
  obtain ⟨hne, hchars⟩ := hn
  obtain ⟨c, nm1, hc⟩ : ∃ c nm1, nm = c :: nm1 := by
    cases h1 : nm with
    | nil => exact absurd h1 hne
    | cons c nm1 => exact ⟨c, nm1, rfl⟩
  have hcname : isNameChar c = true := (hchars c (by rw [hc]; simp)).1
  have hcne := nameChar_ne hcname
  set X := (attrs.map serAttr).flatten ++ '>' :: r0 with hX
  have hhead : (nm ++ X).head? = some c := by
    rw [hc, List.cons_append]
    rfl
  have hstop : ∀ d w, X = d :: w → isNameChar d = false := by
    intro d w hdw
    rw [hX] at hdw
    cases attrs with
    | nil =>
      simp only [List.map_nil, List.flatten_nil, List.nil_append, List.cons.injEq] at hdw
      rw [← hdw.1]
      decide
    | cons a as =>
      have : (serAttr a ++ ((as.map serAttr).flatten ++ '>' :: r0)) = d :: w := by
        simpa [List.append_assoc] using hdw
      unfold serAttr at this
      simp only [List.cons_append, List.cons.injEq] at this
      rw [← this.1]
      decide
  have htw := takeWhile_append_stop (p := isNameChar)
    (fun d hd => (hchars d hd).1) hstop
  unfold parseTag
  rw [hhead]
  rw [if_neg (by
    intro he
    simp only [Option.some.injEq] at he
    exact (hcne.2.2.1) he)]
  rw [htw.1, htw.2]
  rw [if_neg hne]
  unfold parseAttrsF
  rw [hX]
  rw [parseAttrsCore_ser r0 attrs hw [] ((nm ++ X).length + 1) (by
    have h1 := flatten_serAttr_len_ge attrs
    have h2 : X.length = ((attrs.map serAttr).flatten).length + (r0.length + 1) := by
      rw [hX]
      simp
    have h3 : (nm ++ X).length = nm.length + X.length := by simp
    omega)]
  rw [toLowerL_id (fun d hd => (hchars d hd).2)]
  rfl

theorem parseTag_serC (nm : Chars) (r0 : Chars) (hn : okName nm) :
    parseTag ('/' :: (nm ++ ('>' :: r0))) = some (.tagC nm, r0) := by
  obtain ⟨hne, hchars⟩ := hn
  have htw := takeWhile_append_stop (p := isNameChar) (u := nm) (v := '>' :: r0)
    (fun d hd => (hchars d hd).1)
    (by
      intro d w hdw
      simp only [List.cons.injEq] at hdw
      rw [← hdw.1]
      decide)
  unfold parseTag
  rw [if_pos (show ('/' :: (nm ++ '>' :: r0)).head? = some '/' from rfl)]
  simp only [List.tail_cons]
  rw [htw.1, htw.2]
  rw [if_neg hne]
  have hdw : List.dropWhile isWsChar ('>' :: r0) = '>' :: r0 :=
    List.dropWhile_cons_of_neg (by decide)
  rw [hdw]
  rw [if_pos (show (('>' :: r0).head? = some '>') from rfl)]
  rw [toLowerL_id (fun d hd => (hchars d hd).2)]
  rfl

theorem serToks_cons (t : HTok) (ts : List HTok) :
    serToks (t :: ts) = serTok t ++ serToks ts := by
  simp [serToks]

theorem serToks_append (u v : List HTok) :
    serToks (u ++ v) = serToks u ++ serToks v := by
  simp [serToks]

theorem wfToks_tail {t : HTok} {ts : List HTok} (h : wfToks (t :: ts)) : wfToks ts :=
  ⟨fun x hx => h.1 x (by simp [hx]), h.2.tail⟩

theorem serTok_nonTxt_head {t : HTok} (h : isTxtB t = false) :
    ∃ w, serTok t = '<' :: w := by
  cases t with
  | txt s => simp [isTxtB] at h
  | tagO nm attrs => exact ⟨_, rfl⟩
  | tagC nm => exact ⟨_, rfl⟩

theorem tokF_serToks : ∀ (ts : List HTok), wfToks ts →
    ∀ n, (serToks ts).length < n → tokF n (serToks ts) = ts := by
  intro ts
  induction ts with
  | nil =>
    intro _ n _
    have h0 : serToks [] = [] := rfl
    rw [h0]
    cases n <;> rfl
  | cons t rest ih =>
    intro hwf n hn
    have hwfr : wfToks rest := wfToks_tail hwf
    have hwt : wfTok t := hwf.1 t (by simp)
    rw [serToks_cons] at hn ⊢
    cases t with
    | txt s =>
      obtain ⟨hsne, hslt⟩ := hwt
      obtain ⟨c, s1, hs⟩ : ∃ c s1, s = c :: s1 := by
        cases h1 : s with
        | nil => exact absurd h1 hsne
        | cons c s1 => exact ⟨c, s1, rfl⟩
      have hclt : ¬ c = '<' := fun he => hslt (by rw [hs, he]; simp)
      cases n with
      | zero =>
        exact absurd hn (by omega)
      | succ n2 =>
        have hstop : ∀ d w, serToks rest = d :: w → (d != '<') = false := by
          intro d w hdw
          cases rest with
          | nil => simp [serToks] at hdw
          | cons t2 r2 =>
            have ht2 : isTxtB t2 = false := by
              have hch := hwf.2
              rw [List.chain'_cons] at hch
              rcases hch.1 with h1 | h1
              · simp [isTxtB] at h1
              · exact h1
            obtain ⟨w2, hw2⟩ := serTok_nonTxt_head ht2
            rw [serToks_cons, hw2, List.cons_append] at hdw
            simp only [List.cons.injEq] at hdw
            rw [← hdw.1]
            decide
        have htw := takeWhile_append_stop (p := (· != '<'))
          (u := s) (v := serToks rest)
          (by
            intro d hd
            simp only [bne_iff_ne, ne_eq, decide_eq_true_eq]
            intro he
            exact hslt (he ▸ hd))
          hstop
        have hser : serTok (HTok.txt s) ++ serToks rest = c :: (s1 ++ serToks rest) := by
          rw [hs]
          rfl
        have hcr : c :: (s1 ++ serToks rest) = s ++ serToks rest := by
          rw [hs]
          rfl
        have hlen : (serToks rest).length < n2 := by
          have h1 : (serTok (HTok.txt s) ++ serToks rest).length
              = s.length + (serToks rest).length := by
            simp [serTok]
          have h2 : s.length = s1.length + 1 := by
            rw [hs]
            rfl
          omega
        rw [hser, tokF, if_neg hclt, hcr, htw.1, htw.2, ih hwfr n2 hlen]
    | tagO nm attrs =>
      obtain ⟨hn0, hwa⟩ := hwt
      cases n with
      | zero => omega
      | succ n2 =>
        have hser : serTok (.tagO nm attrs) ++ serToks rest
            = '<' :: (nm ++ ((attrs.map serAttr).flatten ++ '>' :: serToks rest)) := by
          show ('<' :: (nm ++ (attrs.map serAttr).flatten ++ ['>'])) ++ serToks rest = _
          simp [List.append_assoc]
        rw [hser, tokF, if_pos rfl, parseTag_serO nm attrs _ hn0 hwa]
        show HTok.tagO nm attrs :: tokF n2 (serToks rest) = _
        have hlen : (serToks rest).length < n2 := by
          rw [hser] at hn
          simp only [List.length_cons, List.length_append] at hn
          omega
        rw [ih hwfr n2 hlen]
    | tagC nm =>
      have hn0 : okName nm := hwt
      cases n with
      | zero => omega
      | succ n2 =>
        have hser : serTok (.tagC nm) ++ serToks rest
            = '<' :: ('/' :: (nm ++ ('>' :: serToks rest))) := by
          show ('<' :: '/' :: (nm ++ ['>'])) ++ serToks rest = _
          simp [List.append_assoc]
        rw [hser, tokF, if_pos rfl, parseTag_serC nm _ hn0]
        show HTok.tagC nm :: tokF n2 (serToks rest) = _
        have hlen : (serToks rest).length < n2 := by
          rw [hser] at hn
          simp only [List.length_cons, List.length_append] at hn
          omega
        rw [ih hwfr n2 hlen]

theorem tokenizeL_serToks (ts : List HTok) (h : wfToks ts) :
    tokenizeL (serToks ts) = ts :=
  tokF_serToks ts h ((serToks ts).length + 1) (Nat.lt_succ_self _)

theorem escTextChar_no_lt (c : Char) : '<' ∉ escTextChar c := by
  unfold escTextChar
  split_ifs with h1 h2 h3
  · decide
  · decide
  · decide
  · simp only [List.mem_singleton]
    exact fun he => h2 he.symm

theorem escText_no_lt (s : Chars) : '<' ∉ escText s := by
  induction s with
  | nil => simp [escText]
  | cons c r ih =>
    simp only [escText, List.mem_append]
    rintro (h | h)
    · exact escTextChar_no_lt c h
    · exact ih h

theorem escValChar_clean (c : Char) : '<' ∉ escValChar c ∧ '"' ∉ escValChar c := by
  unfold escValChar
  split_ifs with h1 h2 h3 h4
  · decide
  · decide
  · decide
  · decide
  · simp only [List.mem_singleton]
    exact ⟨fun he => h2 he.symm, fun he => h4 he.symm⟩

theorem escVal_clean (s : Chars) : '<' ∉ escVal s ∧ '"' ∉ escVal s := by
  induction s with
  | nil => simp [escVal]
  | cons c r ih =>
    simp only [escVal, List.mem_append]
    constructor
    · rintro (h | h)
      · exact (escValChar_clean c).1 h
      · exact ih.1 h
    · rintro (h | h)
      · exact (escValChar_clean c).2 h
      · exact ih.2 h

theorem allowedTagNames_okName : ∀ nm ∈ allowedTagNames,
    nm ≠ [] ∧ ∀ c ∈ nm, isNameChar c = true ∧ c.toLower = c := by
  decide

theorem allowedAttrNames_wf : ∀ nm ∈ allowedAttrNames,
    nm ≠ [] ∧ ∀ c ∈ nm, isAttrNameChar c = true ∧ c.toLower = c := by
  decide

theorem filterTok_tagO (nm : Chars) (attrs : List (Chars × Chars)) :
    filterTok (.tagO nm attrs) =
      if nm ∈ allowedTagNames then
        .tagO nm (((attrs.filter (fun a => a.1 ∈ allowedAttrNames)).map
          (fun a => (a.1, escVal a.2))))
      else .txt (escText (serTok (.tagO nm attrs))) := rfl

theorem filterTok_tagC (nm : Chars) :
    filterTok (.tagC nm) =
      if nm ∈ allowedTagNames then HTok.tagC nm
      else .txt (escText (serTok (.tagC nm))) := rfl

theorem filterTok_semiWf (t : HTok) : semiWf (filterTok t) := by
  cases t with
  | txt s =>
    exact escText_no_lt s
  | tagO nm attrs =>
    rw [filterTok_tagO]
    split_ifs with h
    · refine ⟨allowedTagNames_okName nm h, ?_⟩
      intro a ha
      simp only [List.mem_map] at ha
      obtain ⟨b, hb, hab⟩ := ha
      have hbn : b.1 ∈ allowedAttrNames := by
        have := (List.mem_filter.mp hb).2
        simpa using this
      obtain ⟨hne, hch⟩ := allowedAttrNames_wf b.1 hbn
      refine ⟨?_, ?_, ?_, ?_⟩
      · rw [← hab]
        exact hne
      · rw [← hab]
        exact hch
      · rw [← hab]
        exact (escVal_clean b.2).2
      · rw [← hab]
        exact (escVal_clean b.2).1
    · exact escText_no_lt _
  | tagC nm =>
    rw [filterTok_tagC]
    split_ifs with h
    · exact allowedTagNames_okName nm h
    · exact escText_no_lt _

theorem filterTok_ok (t : HTok) : okTok (filterTok t) := by
  cases t with
  | txt s => trivial
  | tagO nm attrs =>
    rw [filterTok_tagO]
    split_ifs with h
    · refine ⟨h, ?_⟩
      intro a ha
      simp only [List.mem_map] at ha
      obtain ⟨b, hb, hab⟩ := ha
      have hbn : b.1 ∈ allowedAttrNames := by
        have := (List.mem_filter.mp hb).2
        simpa using this
      rw [← hab]
      exact hbn
    · trivial
  | tagC nm =>
    rw [filterTok_tagC]
    split_ifs with h
    · exact h
    · trivial

theorem pushTxt_nil_s (ts : List HTok) : pushTxt [] ts = ts := by
  unfold pushTxt
  rw [if_pos rfl]

theorem pushTxt_txt {s : Chars} (h : s ≠ []) (s2 : Chars) (r : List HTok) :
    pushTxt s (.txt s2 :: r) = .txt (s ++ s2) :: r := by
  unfold pushTxt
  rw [if_neg h]

theorem pushTxt_other {s : Chars} (h : s ≠ []) {ts : List HTok}
    (h2 : ∀ s2 r, ts ≠ .txt s2 :: r) :
    pushTxt s ts = .txt s :: ts := by
  unfold pushTxt
  rw [if_neg h]
  cases ts with
  | nil => rfl
  | cons t2 r =>
    cases t2 with
    | txt s2 => exact absurd rfl (h2 s2 r)
    | tagO nm attrs => rfl
    | tagC nm => rfl

theorem pushTxt_sub (s : Chars) (ts : List HTok) :
    ∀ t ∈ pushTxt s ts, (∃ u, t = .txt u) ∨ t ∈ ts := by
  intro t ht
  by_cases h : s = []
  · rw [h, pushTxt_nil_s] at ht
    exact Or.inr ht
  · cases ts with
    | nil =>
      rw [pushTxt_other h (by intro s2 r he; exact absurd he (by simp))] at ht
      simp only [List.mem_singleton] at ht
      exact Or.inl ⟨s, ht⟩
    | cons t2 r =>
      cases t2 with
      | txt s2 =>
        rw [pushTxt_txt h] at ht
        rcases List.mem_cons.mp ht with h1 | h1
        · exact Or.inl ⟨_, h1⟩
        · exact Or.inr (List.mem_cons_of_mem _ h1)
      | tagO nm attrs =>
        rw [pushTxt_other h (by intro s2 r2 he; simp at he)] at ht
        rcases List.mem_cons.mp ht with h1 | h1
        · exact Or.inl ⟨_, h1⟩
        · exact Or.inr h1
      | tagC nm =>
        rw [pushTxt_other h (by intro s2 r2 he; simp at he)] at ht
        rcases List.mem_cons.mp ht with h1 | h1
        · exact Or.inl ⟨_, h1⟩
        · exact Or.inr h1

theorem mem_mergeTxts : ∀ (ts : List HTok), ∀ t ∈ mergeTxts ts,
    (∃ u, t = .txt u) ∨ t ∈ ts := by
  intro ts
  induction ts with
  | nil =>
    intro t ht
    simp [mergeTxts] at ht
  | cons t0 rest ih =>
    intro t ht
    cases t0 with
    | txt s =>
      rw [show mergeTxts (HTok.txt s :: rest) = pushTxt s (mergeTxts rest) from rfl] at ht
      rcases pushTxt_sub s _ t ht with h | h
      · exact Or.inl h
      · rcases ih t h with h2 | h2
        · exact Or.inl h2
        · exact Or.inr (List.mem_cons_of_mem _ h2)
    | tagO nm attrs =>
      rw [show mergeTxts (HTok.tagO nm attrs :: rest)
          = HTok.tagO nm attrs :: mergeTxts rest from rfl] at ht
      rcases List.mem_cons.mp ht with h | h
      · exact Or.inr (by simp [h])
      · rcases ih t h with h2 | h2
        · exact Or.inl h2
        · exact Or.inr (List.mem_cons_of_mem _ h2)
    | tagC nm =>
      rw [show mergeTxts (HTok.tagC nm :: rest)
          = HTok.tagC nm :: mergeTxts rest from rfl] at ht
      rcases List.mem_cons.mp ht with h | h
      · exact Or.inr (by simp [h])
      · rcases ih t h with h2 | h2
        · exact Or.inl h2
        · exact Or.inr (List.mem_cons_of_mem _ h2)

theorem pushTxt_wf {s : Chars} (hs : '<' ∉ s) {M : List HTok} (hM : wfToks M) :
    wfToks (pushTxt s M) := by
  by_cases h : s = []
  · rw [h, pushTxt_nil_s]
    exact hM
  · cases M with
    | nil =>
      rw [pushTxt_other h (by intro s2 r he; exact absurd he (by simp))]
      refine ⟨?_, by simp⟩
      intro t ht
      simp only [List.mem_singleton] at ht
      rw [ht]
      exact ⟨h, hs⟩
    | cons t2 r =>
      cases t2 with
      | txt s2 =>
        rw [pushTxt_txt h]
        have hwf2 : wfTok (HTok.txt s2) := hM.1 _ (by simp)
        refine ⟨?_, ?_⟩
        · intro t ht
          rcases List.mem_cons.mp ht with h1 | h1
          · rw [h1]
            refine ⟨?_, ?_⟩
            · intro hap
              exact h (List.append_eq_nil.mp hap).1
            · intro hmem
              rcases List.mem_append.mp hmem with h2 | h2
              · exact hs h2
              · exact hwf2.2 h2
          · exact hM.1 t (List.mem_cons_of_mem _ h1)
        · have hch := hM.2
          rw [List.chain'_cons'] at hch ⊢
          exact ⟨fun b hb => hch.1 b hb, hch.2⟩
      | tagO nm attrs =>
        rw [pushTxt_other h (by intro s2 r2 he; simp at he)]
        refine ⟨?_, ?_⟩
        · intro t ht
          rcases List.mem_cons.mp ht with h1 | h1
          · rw [h1]
            exact ⟨h, hs⟩
          · exact hM.1 t h1
        · rw [List.chain'_cons']
          refine ⟨?_, hM.2⟩
          intro b hb
          simp only [List.head?_cons, Option.mem_def, Option.some.injEq] at hb
          rw [← hb]
          exact Or.inr rfl
      | tagC nm =>
        rw [pushTxt_other h (by intro s2 r2 he; simp at he)]
        refine ⟨?_, ?_⟩
        · intro t ht
          rcases List.mem_cons.mp ht with h1 | h1
          · rw [h1]
            exact ⟨h, hs⟩
          · exact hM.1 t h1
        · rw [List.chain'_cons']
          refine ⟨?_, hM.2⟩
          intro b hb
          simp only [List.head?_cons, Option.mem_def, Option.some.injEq] at hb
          rw [← hb]
          exact Or.inr rfl

theorem mergeTxts_wfToks (ts : List HTok) (h : ∀ t ∈ ts, semiWf t) :
    wfToks (mergeTxts ts) := by
  induction ts with
  | nil =>
    exact ⟨fun t ht => by simp [mergeTxts] at ht, by simp [mergeTxts]⟩
  | cons t0 rest ih =>
    have hrest : ∀ t ∈ rest, semiWf t := fun t ht => h t (List.mem_cons_of_mem _ ht)
    cases t0 with
    | txt s =>
      rw [show mergeTxts (HTok.txt s :: rest) = pushTxt s (mergeTxts rest) from rfl]
      have hs : semiWf (HTok.txt s) := h (HTok.txt s) (by simp)
      exact pushTxt_wf hs (ih hrest)
    | tagO nm attrs =>
      rw [show mergeTxts (HTok.tagO nm attrs :: rest)
          = HTok.tagO nm attrs :: mergeTxts rest from rfl]
      refine ⟨?_, ?_⟩
      · intro t ht
        rcases List.mem_cons.mp ht with h1 | h1
        · rw [h1]
          exact h (HTok.tagO nm attrs) (by simp)
        · exact (ih hrest).1 t h1
      · rw [List.chain'_cons']
        exact ⟨fun b _ => Or.inl rfl, (ih hrest).2⟩
    | tagC nm =>
      rw [show mergeTxts (HTok.tagC nm :: rest)
          = HTok.tagC nm :: mergeTxts rest from rfl]
      refine ⟨?_, ?_⟩
      · intro t ht
        rcases List.mem_cons.mp ht with h1 | h1
        · rw [h1]
          exact h (HTok.tagC nm) (by simp)
        · exact (ih hrest).1 t h1
      · rw [List.chain'_cons']
        exact ⟨fun b _ => Or.inl rfl, (ih hrest).2⟩

theorem bleachCleanL_tokens (l : Chars) :
    bleachCleanL l = serToks (mergeTxts ((tokenizeL l).map filterTok)) ∧
    wfToks (mergeTxts ((tokenizeL l).map filterTok)) ∧
    (∀ t ∈ mergeTxts ((tokenizeL l).map filterTok), okTok t) ∧
    tokenizeL (bleachCleanL l) = mergeTxts ((tokenizeL l).map filterTok) := by
  have hwf : wfToks (mergeTxts ((tokenizeL l).map filterTok)) := by
    refine mergeTxts_wfToks _ ?_
    intro t ht
    simp only [List.mem_map] at ht
    obtain ⟨b, _, hb⟩ := ht
    rw [← hb]
    exact filterTok_semiWf b
  have hok : ∀ t ∈ mergeTxts ((tokenizeL l).map filterTok), okTok t := by
    intro t ht
    rcases mem_mergeTxts _ t ht with ⟨u, hu⟩ | hmem
    · rw [hu]
      trivial
    · simp only [List.mem_map] at hmem
      obtain ⟨b, _, hb⟩ := hmem
      rw [← hb]
      exact filterTok_ok b
  refine ⟨rfl, hwf, hok, ?_⟩
  rw [show bleachCleanL l = serToks (mergeTxts ((tokenizeL l).map filterTok)) from rfl]
  exact tokenizeL_serToks _ hwf

theorem isPre_append_both (u x y : Chars) : isPre (u ++ x) (u ++ y) = isPre x y := by
  induction u with
  | nil => rfl
  | cons c cs ih => simp [isPre, ih]

theorem earlyDiff_not_isPre {u w : Chars} (h : earlyDiff u w = true) (x y : Chars) :
    isPre (u ++ x) (w ++ y) = false := by
  induction u generalizing w with
  | nil => simp [earlyDiff] at h
  | cons a as ih =>
    cases w with
    | nil => simp [earlyDiff] at h
    | cons b bs =>
      simp only [earlyDiff, Bool.or_eq_true, bne_iff_ne, ne_eq] at h
      rcases h with h | h
      · have hb : (a == b) = false := by
          simpa using h
        simp [isPre, hb]
      · simp [isPre, ih h]

theorem replaceAll_cons_no {pat : Chars} (rep : Chars) {c : Char} {l : Chars}
    (h : isPre pat (c :: l) = false) :
    replaceAll pat rep (c :: l) = c :: replaceAll pat rep l := by
  rw [replaceAll]
  rw [dif_neg (fun hc => absurd hc.2 (by simp [h]))]

theorem replaceAll_pre {pat : Chars} (rep tail : Chars) (hne : pat ≠ []) :
    replaceAll pat rep (pat ++ tail) = rep ++ replaceAll pat rep tail := by
  cases pat with
  | nil => exact absurd rfl hne
  | cons c ps =>
    rw [List.cons_append, replaceAll]
    rw [dif_pos ⟨hne, by
      rw [← List.cons_append]
      exact isPre_append_self (c :: ps) tail⟩]
    rw [← List.cons_append, List.drop_left]

theorem replaceAll_skip {pat : Chars} (rep : Chars) {s : Chars} {c0 : Char} {pr : Chars}
    (hpat : pat = c0 :: pr) (hs : c0 ∉ s) (tail : Chars) :
    replaceAll pat rep (s ++ tail) = s ++ replaceAll pat rep tail := by
  induction s with
  | nil => rfl
  | cons d ds ih =>
    have hne : ¬ c0 = d := fun he => hs (he ▸ List.mem_cons_self d ds)
    have hpre : isPre pat (d :: (ds ++ tail)) = false := by
      rw [hpat]
      simp [isPre, hne]
    rw [List.cons_append, replaceAll_cons_no rep hpre,
      ih (fun hm => hs (List.mem_cons_of_mem _ hm))]
    rfl

theorem serAttr_no_lt {a : Chars × Chars} (h : wfAttr a) : '<' ∉ serAttr a := by
  obtain ⟨_, hch, _, hlt⟩ := h
  unfold serAttr
  intro hm
  rcases List.mem_cons.mp hm with h1 | h1
  · exact absurd h1 (by decide)
  rcases List.mem_append.mp h1 with h2 | h2
  · rcases List.mem_append.mp h2 with h3 | h3
    · exact absurd ((hch _ h3).1) (by decide)
    · rcases List.mem_cons.mp h3 with h4 | h4
      · exact absurd h4 (by decide)
      rcases List.mem_cons.mp h4 with h5 | h5
      · exact absurd h5 (by decide)
      · exact hlt h5
  · exact absurd (List.mem_singleton.mp h2) (by decide)

theorem flat_no_lt {attrs : List (Chars × Chars)} (h : ∀ a ∈ attrs, wfAttr a) :
    '<' ∉ (attrs.map serAttr).flatten := by
  intro hm
  rw [List.mem_flatten] at hm
  obtain ⟨l, hl, hcl⟩ := hm
  simp only [List.mem_map] at hl
  obtain ⟨a, ha, hla⟩ := hl
  exact serAttr_no_lt (h a ha) (hla ▸ hcl)

theorem serTok_tagO_body {nm : Chars} {attrs : List (Chars × Chars)}
    (hn : okName nm) (hw : ∀ a ∈ attrs, wfAttr a) :
    serTok (.tagO nm attrs) = '<' :: (nm ++ (attrs.map serAttr).flatten ++ ['>']) ∧
    '<' ∉ (nm ++ (attrs.map serAttr).flatten ++ ['>']) := by
  refine ⟨rfl, ?_⟩
  intro hm
  simp only [List.mem_append, List.mem_singleton] at hm
  rcases hm with (h1 | h1) | h1
  · exact absurd ((hn.2 _ h1).1) (by decide)
  · exact flat_no_lt hw h1
  · exact absurd h1.symm (by decide)

theorem serTok_tagC_body {nm : Chars} (hn : okName nm) :
    serTok (.tagC nm) = '<' :: ('/' :: (nm ++ ['>'])) ∧
    '<' ∉ ('/' :: (nm ++ ['>'])) := by
  refine ⟨rfl, ?_⟩
  intro hm
  simp only [List.mem_cons, List.mem_append, List.mem_singleton] at hm
  rcases hm with h1 | (h1 | h1)
  · exact absurd h1.symm (by decide)
  · exact absurd ((hn.2 _ h1).1) (by decide)
  · exact absurd h1.symm (by decide)

theorem patNames_earlyDiff : ∀ p ∈ patNames, ∀ n ∈ allowedTagNames,
    p = n ∨ earlyDiff p n = true := by
  decide

theorem patNames_shape : ∀ p ∈ patNames, p ≠ [] ∧ p.head? ≠ some '/' := by
  decide

theorem isPre_cons_cons (p c : Char) (ps cs : Chars) :
    isPre (p :: ps) (c :: cs) = ((p == c) && isPre ps cs) := rfl

theorem tagPat_no_pre_tagO {pnm nm : Chars} {attrs : List (Chars × Chars)}
    (hp : pnm ∈ patNames) (hnm : nm ∈ allowedTagNames)
    (hcase : ¬ (nm = pnm ∧ attrs = [])) (R : Chars) :
    isPre (tagPat pnm) ('<' :: ((nm ++ (attrs.map serAttr).flatten ++ ['>']) ++ R))
      = false := by
  have hshape : (nm ++ (attrs.map serAttr).flatten ++ ['>']) ++ R
      = nm ++ ((attrs.map serAttr).flatten ++ ('>' :: R)) := by
    simp [List.append_assoc]
  rw [hshape]
  rw [show tagPat pnm = '<' :: (pnm ++ ['>']) from rfl]
  rw [isPre_cons_cons]
  simp only [beq_self_eq_true, Bool.true_and]
  rcases patNames_earlyDiff pnm hp nm hnm with he | he
  · subst he
    have hattrs : attrs ≠ [] := fun h0 => hcase ⟨rfl, h0⟩
    obtain ⟨a, as, ha⟩ : ∃ a as, attrs = a :: as := by
      cases h1 : attrs with
      | nil => exact absurd h1 hattrs
      | cons a as => exact ⟨a, as, rfl⟩
    have hW : (attrs.map serAttr).flatten ++ ('>' :: R)
        = ' ' :: ((a.1 ++ '=' :: '"' :: a.2 ++ ['"']) ++
            ((as.map serAttr).flatten ++ ('>' :: R))) := by
      rw [ha]
      simp [serAttr, List.append_assoc]
    rw [hW, isPre_append_both, isPre_cons_cons]
    rw [show ('>' == ' ') = false from by decide, Bool.false_and]
  · exact earlyDiff_not_isPre he _ _

theorem tagPat_no_pre_tagC {pnm nm : Chars} (hp : pnm ∈ patNames) (R : Chars) :
    isPre (tagPat pnm) ('<' :: (('/' :: (nm ++ ['>'])) ++ R)) = false := by
  obtain ⟨hne, hhd⟩ := patNames_shape pnm hp
  obtain ⟨c, pr, hc⟩ : ∃ c pr, pnm = c :: pr := by
    cases h1 : pnm with
    | nil => exact absurd h1 hne
    | cons c pr => exact ⟨c, pr, rfl⟩
  have hcs : (c == '/') = false := by
    rw [hc] at hhd
    simpa using hhd
  rw [show tagPat pnm = '<' :: (pnm ++ ['>']) from rfl]
  rw [isPre_cons_cons]
  simp only [beq_self_eq_true, Bool.true_and]
  rw [hc, List.cons_append, List.cons_append, isPre_cons_cons, hcs, Bool.false_and]

theorem injTok_tagO (pnm : Chars) (newAttrs : List (Chars × Chars))
    (nm : Chars) (attrs : List (Chars × Chars)) :
    injTok pnm newAttrs (.tagO nm attrs)
      = if nm = pnm ∧ attrs = [] then .tagO nm newAttrs else .tagO nm attrs := rfl

theorem injTok_isTxtB (pnm : Chars) (newAttrs : List (Chars × Chars)) (t : HTok) :
    isTxtB (injTok pnm newAttrs t) = isTxtB t := by
  cases t with
  | txt s => rfl
  | tagO nm attrs =>
    rw [injTok_tagO]
    split_ifs <;> rfl
  | tagC nm => rfl

theorem injTok_wfTok {pnm : Chars} {newAttrs : List (Chars × Chars)}
    (hna : ∀ a ∈ newAttrs, wfAttr a) {t : HTok} (h : wfTok t) :
    wfTok (injTok pnm newAttrs t) := by
  cases t with
  | txt s => exact h
  | tagO nm attrs =>
    rw [injTok_tagO]
    split_ifs with hm
    · exact ⟨h.1, hna⟩
    · exact h
  | tagC nm => exact h

theorem injTok_okTok {pnm : Chars} {newAttrs : List (Chars × Chars)}
    (hna : ∀ a ∈ newAttrs, a.1 ∈ allowedAttrNames) {t : HTok} (h : okTok t) :
    okTok (injTok pnm newAttrs t) := by
  cases t with
  | txt s => trivial
  | tagO nm attrs =>
    rw [injTok_tagO]
    split_ifs with hm
    · exact ⟨h.1, hna⟩
    · exact h
  | tagC nm => exact h

theorem map_injTok_wfToks {pnm : Chars} {newAttrs : List (Chars × Chars)}
    (hna : ∀ a ∈ newAttrs, wfAttr a) {M : List HTok} (h : wfToks M) :
    wfToks (M.map (injTok pnm newAttrs)) := by
  refine ⟨?_, ?_⟩
  · intro t ht
    simp only [List.mem_map] at ht
    obtain ⟨b, hb, hbt⟩ := ht
    rw [← hbt]
    exact injTok_wfTok hna (h.1 b hb)
  · rw [List.chain'_map]
    refine h.2.imp ?_
    intro a b hab
    rw [injTok_isTxtB, injTok_isTxtB]
    exact hab

theorem replaceAll_inject (pnm : Chars) (hp : pnm ∈ patNames)
    (newAttrs : List (Chars × Chars)) :
    ∀ (M : List HTok), (∀ t ∈ M, wfTok t) → (∀ t ∈ M, okTok t) →
    replaceAll (tagPat pnm) (serTok (.tagO pnm newAttrs)) (serToks M)
      = serToks (M.map (injTok pnm newAttrs)) := by
  intro M
  induction M with
  | nil =>
    intro _ _
    rw [show serToks ([] : List HTok) = [] from rfl,
      show serToks (List.map (injTok pnm newAttrs) []) = [] from rfl]
    rw [replaceAll]
  | cons t rest ih =>
    intro hwf hok
    have hwr : ∀ x ∈ rest, wfTok x := fun x hx => hwf x (List.mem_cons_of_mem _ hx)
    have hor : ∀ x ∈ rest, okTok x := fun x hx => hok x (List.mem_cons_of_mem _ hx)
    rw [serToks_cons, List.map_cons, serToks_cons]
    cases t with
    | txt s =>
      have hs0 : wfTok (HTok.txt s) := hwf (HTok.txt s) (by simp)
      have hs : '<' ∉ s := hs0.2
      rw [show serTok (HTok.txt s) = s from rfl]
      rw [replaceAll_skip _ (show tagPat pnm = '<' :: (pnm ++ ['>']) from rfl) hs]
      rw [ih hwr hor]
      rfl
    | tagO nm attrs =>
      have hwt : wfTok (HTok.tagO nm attrs) := hwf (HTok.tagO nm attrs) (by simp)
      have hot : okTok (HTok.tagO nm attrs) := hok (HTok.tagO nm attrs) (by simp)
      by_cases hm : nm = pnm ∧ attrs = []
      · obtain ⟨h1, h2⟩ := hm
        subst h1
        subst h2
        have hser : serTok (HTok.tagO nm []) = tagPat nm := by
          show '<' :: (nm ++ [] ++ ['>']) = '<' :: (nm ++ ['>'])
          simp
        rw [hser, replaceAll_pre _ _ (by
          show tagPat nm ≠ []
          rw [show tagPat nm = '<' :: (nm ++ ['>']) from rfl]
          simp)]
        rw [ih hwr hor]
        rw [show injTok nm newAttrs (HTok.tagO nm []) = HTok.tagO nm newAttrs from by
          rw [injTok_tagO]
          rw [if_pos ⟨rfl, rfl⟩]]
      · obtain ⟨hbody, hnolt⟩ := serTok_tagO_body hwt.1 hwt.2
        rw [hbody, List.cons_append]
        rw [replaceAll_cons_no _ (tagPat_no_pre_tagO hp hot.1 hm _)]
        rw [replaceAll_skip _ (show tagPat pnm = '<' :: (pnm ++ ['>']) from rfl) hnolt]
        rw [ih hwr hor]
        rw [show injTok pnm newAttrs (HTok.tagO nm attrs) = HTok.tagO nm attrs from by
          rw [injTok_tagO]
          rw [if_neg hm]]
        rw [hbody, List.cons_append]
    | tagC nm =>
      have hwt : wfTok (HTok.tagC nm) := hwf (HTok.tagC nm) (by simp)
      obtain ⟨hbody, hnolt⟩ := serTok_tagC_body hwt
      rw [hbody, List.cons_append]
      rw [replaceAll_cons_no _ (tagPat_no_pre_tagC hp _)]
      rw [replaceAll_skip _ (show tagPat pnm = '<' :: (pnm ++ ['>']) from rfl) hnolt]
      rw [ih hwr hor]
      rw [show injTok pnm newAttrs (HTok.tagC nm) = HTok.tagC nm from rfl]
      rw [hbody, List.cons_append]
      simp [List.append_assoc]

theorem injH_wf : ∀ a ∈ injH, wfAttr a := by
  intro a ha
  simp only [injH, List.mem_singleton] at ha
  subst ha
  exact ⟨by decide, by decide, by decide, by decide⟩

theorem injP_wf : ∀ a ∈ injP, wfAttr a := by
  intro a ha
  simp only [injP, List.mem_singleton] at ha
  subst ha
  exact ⟨by decide, by decide, by decide, by decide⟩

theorem injL_wf : ∀ a ∈ injL, wfAttr a := by
  intro a ha
  rcases List.mem_cons.mp ha with h1 | h1
  · subst h1
    exact ⟨by decide, by decide, by decide, by decide⟩
  · have h2 := List.mem_singleton.mp h1
    subst h2
    exact ⟨by decide, by decide, by decide, by decide⟩

theorem divO_wf : wfTok (HTok.tagO "div".data [("class".data, "advice-content".data)]) := by
  refine ⟨⟨by decide, by decide⟩, ?_⟩
  intro a ha
  simp only [List.mem_singleton] at ha
  subst ha
  exact ⟨by decide, by decide, by decide, by decide⟩

theorem divC_wf : wfTok (HTok.tagC "div".data) := ⟨by decide, by decide⟩

theorem inject_step (pnm : Chars) (hp : pnm ∈ patNames)
    (na : List (Chars × Chars)) (hw : ∀ a ∈ na, wfAttr a)
    (ho : ∀ a ∈ na, a.1 ∈ allowedAttrNames)
    (N : List HTok) (hN : wfToks N) (hoN : ∀ t ∈ N, okTok t) :
    replaceAll (tagPat pnm) (serTok (.tagO pnm na)) (serToks N)
        = serToks (N.map (injTok pnm na))
      ∧ wfToks (N.map (injTok pnm na))
      ∧ (∀ t ∈ N.map (injTok pnm na), okTok t) := by
  refine ⟨replaceAll_inject pnm hp na N hN.1 hoN, map_injTok_wfToks hw hN, ?_⟩
  intro t ht
  simp only [List.mem_map] at ht
  obtain ⟨b, hb, hbt⟩ := ht
  rw [← hbt]
  exact injTok_okTok ho (hoN b hb)

theorem injectAll_tokens (M : List HTok) (hwf : wfToks M) (hok : ∀ t ∈ M, okTok t) :
    injectAll (serToks M) = serToks (injAllToks M) ∧
    wfToks (injAllToks M) ∧ (∀ t ∈ injAllToks M, okTok t) := by
  obtain ⟨q1, w1, o1⟩ := inject_step "h1".data (by decide) injH injH_wf (by decide)
    M hwf hok
  obtain ⟨q2, w2, o2⟩ := inject_step "h2".data (by decide) injH injH_wf (by decide)
    _ w1 o1
  obtain ⟨q3, w3, o3⟩ := inject_step "h3".data (by decide) injH injH_wf (by decide)
    _ w2 o2
  obtain ⟨q4, w4, o4⟩ := inject_step "p".data (by decide) injP injP_wf (by decide)
    _ w3 o3
  obtain ⟨q5, w5, o5⟩ := inject_step "ul".data (by decide) injL injL_wf (by decide)
    _ w4 o4
  obtain ⟨q6, w6, o6⟩ := inject_step "ol".data (by decide) injL injL_wf (by decide)
    _ w5 o5
  refine ⟨?_, w6, o6⟩
  have e1 : "<h1>".data = tagPat "h1".data := by decide
  have e2 : "<h2>".data = tagPat "h2".data := by decide
  have e3 : "<h3>".data = tagPat "h3".data := by decide
  have e4 : "<p>".data = tagPat "p".data := by decide
  have e5 : "<ul>".data = tagPat "ul".data := by decide
  have e6 : "<ol>".data = tagPat "ol".data := by decide
  have r1 : "<h1 class=\"advice-heading\">".data = serTok (.tagO "h1".data injH) := by
    decide
  have r2 : "<h2 class=\"advice-heading\">".data = serTok (.tagO "h2".data injH) := by
    decide
  have r3 : "<h3 class=\"advice-heading\">".data = serTok (.tagO "h3".data injH) := by
    decide
  have r4 : "<p class=\"advice-paragraph\">".data = serTok (.tagO "p".data injP) := by
    decide
  have r5 : "<ul class=\"advice-list\" style=\"margin-bottom: 16px;\">".data
      = serTok (.tagO "ul".data injL) := by decide
  have r6 : "<ol class=\"advice-list\" style=\"margin-bottom: 16px;\">".data
      = serTok (.tagO "ol".data injL) := by decide
  unfold injectAll
  rw [e1, r1, q1, e2, r2, q2, e3, r3, q3, e4, r4, q4, e5, r5, q5, e6, r6, q6]
  rfl

theorem wfToks_wrap {M : List HTok} (h : wfToks M) {a b : HTok}
    (hwa : wfTok a) (hwb : wfTok b) (hta : isTxtB a = false) (htb : isTxtB b = false) :
    wfToks (a :: (M ++ [b])) := by
  refine ⟨?_, ?_⟩
  · intro t ht
    rcases List.mem_cons.mp ht with h1 | h1
    · rw [h1]
      exact hwa
    rcases List.mem_append.mp h1 with h2 | h2
    · exact h.1 t h2
    · rw [List.mem_singleton.mp h2]
      exact hwb
  · rw [List.chain'_cons']
    refine ⟨fun x _ => Or.inl hta, ?_⟩
    refine List.Chain'.append h.2 (by simp) ?_
    intro x hx y hy
    simp only [List.head?_cons, Option.mem_def, Option.some.injEq] at hy
    rw [← hy]
    exact Or.inr htb

theorem okTok_consequences {t : HTok} (h : okTok t) :
    tokTagName t ≠ some "script".data ∧ "onclick".data ∉ tokAttrNames t := by
  cases t with
  | txt s =>
    exact ⟨by simp [tokTagName], by simp [tokAttrNames]⟩
  | tagO nm attrs =>
    refine ⟨?_, ?_⟩
    · intro he
      simp only [tokTagName, Option.some.injEq] at he
      rw [he] at h
      exact absurd h.1 (by decide)
    · intro hm
      simp only [tokAttrNames, List.mem_map] at hm
      obtain ⟨a, ha, haeq⟩ := hm
      have h2 := h.2 a ha
      rw [haeq] at h2
      exact absurd h2 (by decide)
  | tagC nm =>
    refine ⟨?_, by simp [tokAttrNames]⟩
    intro he
    simp only [tokTagName, Option.some.injEq] at he
    rw [he] at h
    have h2 : ("script".data : Chars) ∈ allowedTagNames := h
    exact absurd h2 (by decide)

theorem fmtAdviceL_tokens (raw : Chars) :
    ∀ t ∈ tokenizeL (fmtAdviceL raw), okTok t := by
  intro t ht
  have hx := bleachCleanL_tokens (mdConvert (numSub (boldSub (unwrapL
    (if occurs escWrapS.data raw then unescapeHtmlL raw else raw)))))
  obtain ⟨hbc_eq, hbc_wf, hbc_ok, _⟩ := hx
  set M := mergeTxts ((tokenizeL (mdConvert (numSub (boldSub (unwrapL
    (if occurs escWrapS.data raw then unescapeHtmlL raw else raw)))))).map filterTok)
    with hM
  obtain ⟨hq, hw, ho⟩ := injectAll_tokens M hbc_wf hbc_ok
  have hinner : fmtInnerL raw = serToks (injAllToks M) := by
    rw [show fmtInnerL raw = injectAll (bleachCleanL (mdConvert (numSub (boldSub (unwrapL
      (if occurs escWrapS.data raw then unescapeHtmlL raw else raw)))))) from rfl]
    rw [hbc_eq, hq]
  have hwo : wrapOpenS.data
      = serTok (.tagO "div".data [("class".data, "advice-content".data)]) := by
    decide
  have hwc : "</div>".data = serTok (.tagC "div".data) := by decide
  have hwhole : fmtAdviceL raw
      = serToks (.tagO "div".data [("class".data, "advice-content".data)]
          :: (injAllToks M ++ [.tagC "div".data])) := by
    rw [show fmtAdviceL raw = wrapOpenS.data ++ fmtInnerL raw ++ "</div>".data from rfl]
    rw [hinner, hwo, hwc, serToks_cons, serToks_append]
    rw [show serToks [HTok.tagC "div".data] = serTok (.tagC "div".data) ++ [] from rfl]
    simp [List.append_assoc]
  have hwfW : wfToks (.tagO "div".data [("class".data, "advice-content".data)]
      :: (injAllToks M ++ [.tagC "div".data])) := by
    exact wfToks_wrap hw divO_wf divC_wf rfl rfl
  rw [hwhole, tokenizeL_serToks _ hwfW] at ht
  rcases List.mem_cons.mp ht with h1 | h1
  · rw [h1]
    exact ⟨by decide, by decide⟩
  rcases List.mem_append.mp h1 with h2 | h2
  · exact ho t h2
  · rw [List.mem_singleton.mp h2]
    exact (show ("div".data : Chars) ∈ allowedTagNames by decide)

/-- C1: For every input string, the output of format_investment_advice
tokenizes to tokens that are all sanitizer-approved: every tag is one of the
allow-listed names and carries only class/style attributes; in particular no
script element and no onclick attribute appears in the output. -/
theorem C1_sanitizer_allowlist (s : String) :
    ∀ t ∈ tokenizeL (fmtAdvice s).data, okTok t ∧
      tokTagName t ≠ some "script".data ∧ "onclick".data ∉ tokAttrNames t := by
  intro t ht
  have hok := fmtAdviceL_tokens s.data t ht
  exact ⟨hok, okTok_consequences hok⟩

theorem plainFacts : ∀ c ∈ plainAlphabet, isWsChar c = false ∧ c.isDigit = false ∧
    c ≠ '&' ∧ c ≠ '<' ∧ c ≠ '>' ∧ c ≠ '*' ∧ c ≠ '#' ∧ c ≠ '\n' := by
  decide

theorem notin_plain {raw : Chars} (hc : ∀ c ∈ raw, c ∈ plainAlphabet) {x : Char}
    (hx : x ∉ plainAlphabet) : x ∉ raw := fun hm => hx (hc x hm)

theorem occurs_false_of_head {pat l : Chars} {c0 : Char} {pr : Chars}
    (hpat : pat = c0 :: pr) (h : c0 ∉ l) : occurs pat l = false := by
  induction l with
  | nil =>
    rw [hpat]
    rfl
  | cons d ds ih =>
    have hne : ¬ c0 = d := fun he => h (by rw [← he] at *; exact List.mem_cons_self c0 ds)
    have hb : (c0 == d) = false := by simpa using hne
    rw [occurs, ih (fun hm => h (List.mem_cons_of_mem _ hm))]
    rw [hpat, isPre_cons_cons, hb]
    rfl

theorem splitFirst_none_of_head {pat l : Chars} {c0 : Char} {pr : Chars}
    (hpat : pat = c0 :: pr) (h : c0 ∉ l) : splitFirst pat l = none := by
  induction l with
  | nil =>
    rw [hpat]
    rfl
  | cons d ds ih =>
    have hne : ¬ c0 = d := fun he => h (by rw [← he] at *; exact List.mem_cons_self c0 ds)
    have hb : (c0 == d) = false := by simpa using hne
    rw [splitFirst, if_neg (by rw [hpat, isPre_cons_cons, hb]; simp)]
    rw [ih (fun hm => h (List.mem_cons_of_mem _ hm))]
    rfl

theorem boldSub_id {l : Chars} (h : '*' ∉ l) : boldSub l = l := by
  induction l with
  | nil => rw [boldSub]
  | cons c cs ih =>
    have hne : ¬ ('*' : Char) = c := fun he => h (by rw [← he] at *; exact List.mem_cons_self _ cs)
    have hb : (('*' : Char) == c) = false := by simpa using hne
    rw [boldSub]
    rw [if_neg (by
      rw [show ("**".data : Chars) = '*' :: ['*'] from rfl, isPre_cons_cons, hb]
      simp)]
    rw [ih (fun hm => h (List.mem_cons_of_mem _ hm))]

theorem mdStrong_id {l : Chars} (h : '*' ∉ l) : mdStrong l = l := by
  induction l with
  | nil => rw [mdStrong]
  | cons c cs ih =>
    have hne : ¬ ('*' : Char) = c := fun he => h (by rw [← he] at *; exact List.mem_cons_self _ cs)
    have hb : (('*' : Char) == c) = false := by simpa using hne
    rw [mdStrong]
    rw [if_neg (by
      rw [show ("**".data : Chars) = '*' :: ['*'] from rfl, isPre_cons_cons, hb]
      simp)]
    rw [ih (fun hm => h (List.mem_cons_of_mem _ hm))]

theorem numSub_id {l : Chars} (h : ∀ c ∈ l, c.isDigit = false) : numSub l = l := by
  induction l with
  | nil => rw [numSub]
  | cons c cs ih =>
    rw [numSub, if_neg (by simp [h c (List.mem_cons_self c cs)])]
    rw [ih (fun x hx => h x (List.mem_cons_of_mem _ hx))]

theorem splitLinesL_single {l : Chars} (h : '\n' ∉ l) : splitLinesL l = [l] := by
  induction l with
  | nil => rfl
  | cons c cs ih =>
    have hne : ¬ c = '\n' := fun he => h (by rw [← he]; exact List.mem_cons_self c cs)
    rw [splitLinesL, if_neg hne, ih (fun hm => h (List.mem_cons_of_mem _ hm))]

theorem dropWhile_id {p : Char → Bool} {l : Chars}
    (h : ∀ c, l.head? = some c → p c = false) : l.dropWhile p = l := by
  cases l with
  | nil => rfl
  | cons c cs => exact List.dropWhile_cons_of_neg (by simp [h c rfl])

theorem trimL_id {l : Chars} (h1 : ∀ c, l.head? = some c → isWsChar c = false)
    (h2 : ∀ c, l.getLast? = some c → isWsChar c = false) : trimL l = l := by
  unfold trimL
  rw [dropWhile_id h1]
  rw [dropWhile_id (by
    intro c hc
    exact h2 c (by rwa [List.head?_reverse] at hc))]
  exact List.reverse_reverse l

theorem escText_id {s : Chars} (h : ∀ c ∈ s, c ≠ '&' ∧ c ≠ '<' ∧ c ≠ '>') :
    escText s = s := by
  induction s with
  | nil => rfl
  | cons c cs ih =>
    obtain ⟨h1, h2, h3⟩ := h c (List.mem_cons_self c cs)
    rw [escText, show escTextChar c = [c] from by
      unfold escTextChar
      rw [if_neg h1, if_neg h2, if_neg h3]]
    rw [ih (fun x hx => h x (List.mem_cons_of_mem _ hx))]
    rfl

theorem intercalate_single (s x : Chars) : List.intercalate s [x] = x := by
  simp [List.intercalate]

theorem groupBlocks_single {l : Chars} (h : trimL l ≠ []) : groupBlocks [l] = [[l]] := by
  rw [groupBlocks, if_neg h]
  rfl

theorem mdBlock_cons_eq (line : Chars) (c : Char) (cs : Chars)
    (hct : trimL line = c :: cs) :
    mdBlock [line] =
      (if c = '<' then List.intercalate "\n".data [line]
      else if 0 < countHashes (c :: cs) ∧ countHashes (c :: cs) ≤ 6 then
        "<h".data ++ (toString (countHashes (c :: cs))).data ++ ">".data ++
          mdStrong (trimL ((c :: cs).drop (countHashes (c :: cs)))) ++
          "</h".data ++ (toString (countHashes (c :: cs))).data ++ ">".data
      else "<p>".data ++ mdStrong (List.intercalate "<br>\n".data ([line].map trimL))
        ++ "</p>".data) := by
  simp only [mdBlock]
  rw [hct]

theorem mdConvert_para {l : Chars} (hl : l ≠ []) (hnl : '\n' ∉ l)
    (htr : trimL l = l)
    (hhead : ∀ c, l.head? = some c → ¬ c = '<' ∧ ¬ c = '#')
    (hstar : '*' ∉ l) :
    mdConvert l = "<p>".data ++ l ++ "</p>".data := by
  obtain ⟨c, cs, hc⟩ : ∃ c cs, l = c :: cs := by
    cases h1 : l with
    | nil => exact absurd h1 hl
    | cons c cs => exact ⟨c, cs, rfl⟩
  have hc2 := hhead c (by rw [hc]; rfl)
  have hct : trimL l = c :: cs := by rw [htr]; exact hc
  unfold mdConvert
  rw [splitLinesL_single hnl, groupBlocks_single (by rw [htr]; exact hl)]
  rw [show ([[l]] : List (List Chars)).map mdBlock = [mdBlock [l]] from rfl]
  rw [intercalate_single]
  rw [mdBlock_cons_eq l c cs hct, if_neg hc2.1]
  have hch : countHashes (c :: cs) = 0 := by
    rw [countHashes, if_neg hc2.2]
  rw [hch, if_neg (by simp)]
  rw [show ([l] : List Chars).map trimL = [trimL l] from rfl, htr, intercalate_single]
  rw [mdStrong_id hstar]

theorem mdConvert_raw {l : Chars} (hl : l ≠ []) (hnl : '\n' ∉ l)
    (htr : trimL l = l) (hhead : ∃ cs, l = '<' :: cs) :
    mdConvert l = l := by
  obtain ⟨cs, hc⟩ := hhead
  have hct : trimL l = '<' :: cs := by rw [htr]; exact hc
  unfold mdConvert
  rw [splitLinesL_single hnl, groupBlocks_single (by rw [htr]; exact hl)]
  rw [show ([[l]] : List (List Chars)).map mdBlock = [mdBlock [l]] from rfl]
  rw [intercalate_single]
  rw [mdBlock_cons_eq l '<' cs hct, if_pos rfl, intercalate_single]

theorem wfToks_ptxt {raw : Chars} (hne : raw ≠ []) (hlt : '<' ∉ raw)
    (attrs : List (Chars × Chars)) (hattrs : ∀ a ∈ attrs, wfAttr a) :
    wfToks [HTok.tagO "p".data attrs, .txt raw, .tagC "p".data] := by
  refine ⟨?_, ?_⟩
  · intro t ht
    rcases List.mem_cons.mp ht with h1 | h1
    · rw [h1]
      exact ⟨⟨by decide, by decide⟩, hattrs⟩
    rcases List.mem_cons.mp h1 with h2 | h2
    · rw [h2]
      exact ⟨hne, hlt⟩
    · rw [List.mem_singleton.mp h2]
      exact ⟨by decide, by decide⟩
  · exact List.Chain'.cons (Or.inl rfl)
      (List.Chain'.cons (Or.inr rfl) (List.chain'_singleton _))

theorem okToks_ptxt (raw : Chars) {attrs : List (Chars × Chars)}
    (hattrs : ∀ a ∈ attrs, a.1 ∈ allowedAttrNames) :
    ∀ t ∈ [HTok.tagO "p".data attrs, .txt raw, .tagC "p".data], okTok t := by
  intro t ht
  rcases List.mem_cons.mp ht with h1 | h1
  · rw [h1]
    exact ⟨by decide, hattrs⟩
  rcases List.mem_cons.mp h1 with h2 | h2
  · rw [h2]
    trivial
  · rw [List.mem_singleton.mp h2]
    exact (show ("p".data : Chars) ∈ allowedTagNames by decide)

theorem serToks_ptxt (raw : Chars) (attrs : List (Chars × Chars)) :
    serToks [HTok.tagO "p".data attrs, .txt raw, .tagC "p".data]
      = serTok (.tagO "p".data attrs) ++ (raw ++ "</p>".data) := by
  have h1 : serTok (.tagC "p".data) = "</p>".data := by decide
  rw [serToks_cons, serToks_cons, serToks_cons, show serToks [] = [] from rfl, h1]
  simp [serTok]

theorem fmtInner_plain {raw : Chars} (hne : raw ≠ []) (hc : ∀ c ∈ raw, c ∈ plainAlphabet) :
    fmtInnerL raw = serToks [HTok.tagO "p".data injP, .txt raw, .tagC "p".data] := by
  have hamp : '&' ∉ raw := notin_plain hc (by decide)
  have hlt : '<' ∉ raw := notin_plain hc (by decide)
  have hstar : '*' ∉ raw := notin_plain hc (by decide)
  have hnl : '\n' ∉ raw := notin_plain hc (by decide)
  have hdig : ∀ c ∈ raw, c.isDigit = false := fun c hm => (plainFacts c (hc c hm)).2.1
  have hws : ∀ c ∈ raw, isWsChar c = false := fun c hm => (plainFacts c (hc c hm)).1
  have htr : trimL raw = raw := trimL_id
    (fun c h0 => hws c (List.mem_of_mem_head? h0))
    (fun c h0 => hws c (List.mem_of_mem_getLast? h0))
  have ho1 : occurs escWrapS.data raw = false :=
    occurs_false_of_head (show escWrapS.data
      = '&' :: "lt;div class=\"advice-content\"&gt;".data from by decide) hamp
  have ho2 : occurs wrapOpenS.data raw = false :=
    occurs_false_of_head (show wrapOpenS.data
      = '<' :: "div class=\"advice-content\">".data from by decide) hlt
  have h1 : (if occurs escWrapS.data raw then unescapeHtmlL raw else raw) = raw := by
    rw [ho1]
    rfl
  have h2 : unwrapL raw = raw := by
    unfold unwrapL
    rw [ho2]
    rfl
  have h3 : boldSub raw = raw := boldSub_id hstar
  have h4 : numSub raw = raw := numSub_id hdig
  have h5 : mdConvert raw = "<p>".data ++ raw ++ "</p>".data :=
    mdConvert_para hne hnl htr
      (fun c h0 => by
        have hf := plainFacts c (hc c (List.mem_of_mem_head? h0))
        exact ⟨hf.2.2.2.1, hf.2.2.2.2.2.2.1⟩)
      hstar
  have hM0wf : wfToks [HTok.tagO "p".data [], .txt raw, .tagC "p".data] :=
    wfToks_ptxt hne hlt [] (by simp)
  have hok0 : ∀ t ∈ [HTok.tagO "p".data [], .txt raw, .tagC "p".data], okTok t :=
    okToks_ptxt raw (by simp)
  have hser0 : "<p>".data ++ raw ++ "</p>".data
      = serToks [HTok.tagO "p".data [], .txt raw, .tagC "p".data] := by
    rw [serToks_ptxt, show serTok (.tagO "p".data []) = "<p>".data from by decide]
    simp [List.append_assoc]
  have htok : tokenizeL (serToks [HTok.tagO "p".data [], .txt raw, .tagC "p".data])
      = [HTok.tagO "p".data [], .txt raw, .tagC "p".data] :=
    tokenizeL_serToks _ hM0wf
  have hf1 : filterTok (HTok.tagO "p".data []) = HTok.tagO "p".data [] := by
    rw [filterTok_tagO, if_pos (show ("p".data : Chars) ∈ allowedTagNames by decide)]
    rfl
  have hf2 : filterTok (HTok.txt raw) = HTok.txt raw := by
    rw [show filterTok (HTok.txt raw) = HTok.txt (escText raw) from rfl]
    rw [escText_id (fun c hm => by
      have hf := plainFacts c (hc c hm)
      exact ⟨hf.2.2.1, hf.2.2.2.1, hf.2.2.2.2.1⟩)]
  have hf3 : filterTok (HTok.tagC "p".data) = HTok.tagC "p".data := by
    rw [filterTok_tagC, if_pos (show ("p".data : Chars) ∈ allowedTagNames by decide)]
  have hmap : ([HTok.tagO "p".data [], .txt raw, .tagC "p".data]).map filterTok
      = [HTok.tagO "p".data [], .txt raw, .tagC "p".data] := by
    rw [List.map_cons, List.map_cons, List.map_cons, List.map_nil, hf1, hf2, hf3]
  have hmerge : mergeTxts [HTok.tagO "p".data [], .txt raw, .tagC "p".data]
      = [HTok.tagO "p".data [], .txt raw, .tagC "p".data] := by
    rw [show mergeTxts [HTok.tagO "p".data [], .txt raw, .tagC "p".data]
        = HTok.tagO "p".data [] :: pushTxt raw (mergeTxts [HTok.tagC "p".data]) from rfl]
    rw [show mergeTxts [HTok.tagC "p".data] = [HTok.tagC "p".data] from rfl]
    rw [pushTxt_other hne (by intro s2 r he; simp at he)]
  have hbc : bleachCleanL (serToks [HTok.tagO "p".data [], .txt raw, .tagC "p".data])
      = serToks [HTok.tagO "p".data [], .txt raw, .tagC "p".data] := by
    rw [show bleachCleanL (serToks [HTok.tagO "p".data [], .txt raw, .tagC "p".data])
        = serToks (mergeTxts ((tokenizeL (serToks
            [HTok.tagO "p".data [], .txt raw, .tagC "p".data])).map filterTok)) from rfl]
    rw [htok, hmap, hmerge]
  obtain ⟨hq, _, _⟩ := injectAll_tokens _ hM0wf hok0
  have hIA : injAllToks [HTok.tagO "p".data [], .txt raw, .tagC "p".data]
      = [HTok.tagO "p".data injP, .txt raw, .tagC "p".data] := rfl
  rw [show fmtInnerL raw = injectAll (bleachCleanL (mdConvert (numSub (boldSub (unwrapL
    (if occurs escWrapS.data raw then unescapeHtmlL raw else raw)))))) from rfl]
  rw [h1, h2, h3, h4, h5, hser0, hbc, hq, hIA]

theorem splitFirst_cons_no {pat : Chars} {c : Char} {l : Chars}
    (h : isPre pat (c :: l) = false) :
    splitFirst pat (c :: l) = (splitFirst pat l).map (fun ab => (c :: ab.1, ab.2)) := by
  rw [splitFirst, if_neg (by simp [h])]

theorem splitFirst_skip {pat : Chars} {s : Chars} {c0 : Char} {pr : Chars}
    (hpat : pat = c0 :: pr) (hs : c0 ∉ s) (tail : Chars) :
    splitFirst pat (s ++ tail)
      = (splitFirst pat tail).map (fun ab => (s ++ ab.1, ab.2)) := by
  induction s with
  | nil =>
    cases hsp : splitFirst pat tail <;> simp [hsp]
  | cons d ds ih =>
    have hne : ¬ c0 = d := fun he => hs (by rw [← he]; exact List.mem_cons_self c0 ds)
    have hb : (c0 == d) = false := by simpa using hne
    have hpre : isPre pat (d :: (ds ++ tail)) = false := by
      rw [hpat, isPre_cons_cons, hb]
      rfl
    rw [List.cons_append, splitFirst_cons_no hpre,
      ih (fun hm => hs (List.mem_cons_of_mem _ hm)), Option.map_map]
    cases hsp : splitFirst pat tail <;> simp

theorem isPre_self (p : Chars) : isPre p p = true := by
  have := isPre_append_self p []
  simpa using this

theorem splitFirst_pre {pat l : Chars} (hne : pat ≠ []) (h : isPre pat l = true) :
    splitFirst pat l = some ([], l.drop pat.length) := by
  cases l with
  | nil =>
    cases pat with
    | nil => exact absurd rfl hne
    | cons c ps => simp [isPre] at h
  | cons c cs => rw [splitFirst, if_pos h]

theorem closePat_no_pre_tagO {dnm nm : Chars} {attrs : List (Chars × Chars)}
    (hn : okName nm) (R : Chars) :
    isPre (closePat dnm) ('<' :: ((nm ++ (attrs.map serAttr).flatten ++ ['>']) ++ R))
      = false := by
  obtain ⟨c, nm1, hcnm⟩ : ∃ c nm1, nm = c :: nm1 := by
    cases h1 : nm with
    | nil => exact absurd h1 hn.1
    | cons c nm1 => exact ⟨c, nm1, rfl⟩
  have hcn : isNameChar c = true := (hn.2 c (by rw [hcnm]; simp)).1
  have hb : (('/' : Char) == c) = false := by
    have := (nameChar_ne hcn).2.2.1
    simpa using fun he => this he.symm
  rw [show closePat dnm = '<' :: ('/' :: (dnm ++ ['>'])) from rfl, isPre_cons_cons]
  simp only [beq_self_eq_true, Bool.true_and]
  rw [hcnm]
  rw [show ((c :: nm1) ++ (attrs.map serAttr).flatten ++ ['>']) ++ R
      = c :: ((nm1 ++ (attrs.map serAttr).flatten ++ ['>']) ++ R) from by simp]
  rw [isPre_cons_cons, hb]
  rfl

theorem closePat_no_pre_tagC {dnm nm : Chars} (hdiff : earlyDiff dnm nm = true)
    (R : Chars) :
    isPre (closePat dnm) ('<' :: (('/' :: (nm ++ ['>'])) ++ R)) = false := by
  rw [show closePat dnm = '<' :: ('/' :: (dnm ++ ['>'])) from rfl, isPre_cons_cons]
  simp only [beq_self_eq_true, Bool.true_and]
  rw [List.cons_append, isPre_cons_cons]
  simp only [beq_self_eq_true, Bool.true_and]
  rw [List.append_assoc]
  exact earlyDiff_not_isPre hdiff _ _

theorem splitFirst_toks (dnm : Chars) :
    ∀ (M : List HTok), (∀ t ∈ M, wfTok t) →
    (∀ nm, HTok.tagC nm ∈ M → earlyDiff dnm nm = true) →
    ∀ tail, splitFirst (closePat dnm) (serToks M ++ tail)
      = (splitFirst (closePat dnm) tail).map (fun ab => (serToks M ++ ab.1, ab.2)) := by
  intro M
  induction M with
  | nil =>
    intro _ _ tail
    rw [show serToks [] = [] from rfl]
    cases hsp : splitFirst (closePat dnm) tail <;> simp [hsp]
  | cons t rest ih =>
    intro hwf hcC tail
    have hwr : ∀ x ∈ rest, wfTok x := fun x hx => hwf x (List.mem_cons_of_mem _ hx)
    have hcr : ∀ nm, HTok.tagC nm ∈ rest → earlyDiff dnm nm = true :=
      fun nm hm => hcC nm (List.mem_cons_of_mem _ hm)
    rw [serToks_cons]
    cases t with
    | txt s =>
      have hs0 : wfTok (HTok.txt s) := hwf (HTok.txt s) (by simp)
      rw [show serTok (HTok.txt s) = s from rfl, List.append_assoc]
      rw [splitFirst_skip (show closePat dnm = '<' :: ('/' :: (dnm ++ ['>'])) from rfl)
        hs0.2, ih hwr hcr tail, Option.map_map]
      cases hsp : splitFirst (closePat dnm) tail <;> simp
    | tagO nm attrs =>
      have hwt : wfTok (HTok.tagO nm attrs) := hwf (HTok.tagO nm attrs) (by simp)
      obtain ⟨hbody, hnolt⟩ := serTok_tagO_body hwt.1 hwt.2
      rw [hbody]
      rw [show (('<' :: (nm ++ (attrs.map serAttr).flatten ++ ['>'])) ++ serToks rest)
          ++ tail = '<' :: ((nm ++ (attrs.map serAttr).flatten ++ ['>'])
            ++ (serToks rest ++ tail)) from by simp]
      rw [splitFirst_cons_no (closePat_no_pre_tagO hwt.1 _)]
      rw [splitFirst_skip (show closePat dnm = '<' :: ('/' :: (dnm ++ ['>'])) from rfl)
        hnolt, ih hwr hcr tail, Option.map_map, Option.map_map]
      cases hsp : splitFirst (closePat dnm) tail <;> simp
    | tagC nm =>
      have hwt : wfTok (HTok.tagC nm) := hwf (HTok.tagC nm) (by simp)
      have hdiff : earlyDiff dnm nm = true := hcC nm (by simp)
      obtain ⟨hbody, hnolt⟩ := serTok_tagC_body hwt
      rw [hbody]
      rw [show (('<' :: ('/' :: (nm ++ ['>']))) ++ serToks rest) ++ tail
          = '<' :: (('/' :: (nm ++ ['>'])) ++ (serToks rest ++ tail)) from by simp]
      rw [splitFirst_cons_no (closePat_no_pre_tagC hdiff _)]
      rw [splitFirst_skip (show closePat dnm = '<' :: ('/' :: (dnm ++ ['>'])) from rfl)
        hnolt, ih hwr hcr tail, Option.map_map, Option.map_map]
      cases hsp : splitFirst (closePat dnm) tail <;> simp

theorem getLast?_append_right {l1 l2 : Chars} (h : l2 ≠ []) :
    (l1 ++ l2).getLast? = l2.getLast? := by
  rw [← List.head?_reverse, List.reverse_append, ← List.head?_reverse (l := l2)]
  cases h2 : l2.reverse with
  | nil => exact absurd (by simpa using congrArg List.reverse h2) h
  | cons d ds =>
    rw [List.cons_append]
    rfl

theorem fmtInner_plain2 {raw : Chars} (hne : raw ≠ []) (hc : ∀ c ∈ raw, c ∈ plainAlphabet) :
    fmtInnerL (fmtAdviceL raw) = serToks [HTok.tagO "p".data injP, .txt raw, .tagC "p".data] := by
  have hamp : '&' ∉ raw := notin_plain hc (by decide)
  have hlt : '<' ∉ raw := notin_plain hc (by decide)
  have hstar : '*' ∉ raw := notin_plain hc (by decide)
  have hnl : '\n' ∉ raw := notin_plain hc (by decide)
  have hdig : ∀ c ∈ raw, c.isDigit = false := fun c hm => (plainFacts c (hc c hm)).2.1
  have hM1wf : wfToks [HTok.tagO "p".data injP, .txt raw, .tagC "p".data] :=
    wfToks_ptxt hne hlt injP injP_wf
  have hok1 : ∀ t ∈ [HTok.tagO "p".data injP, .txt raw, .tagC "p".data], okTok t :=
    okToks_ptxt raw (by decide)
  have hxin : ∀ x : Char, x ∉ serTok (HTok.tagO "p".data injP) → x ∉ raw →
      x ∉ ("</p>".data : Chars) → x ∉ serToks [HTok.tagO "p".data injP, .txt raw, .tagC "p".data] := by
    intro x h1 h2 h3 hm
    rw [serToks_ptxt] at hm
    rcases List.mem_append.mp hm with hA | hA
    · exact h1 hA
    rcases List.mem_append.mp hA with hB | hB
    · exact h2 hB
    · exact h3 hB
  have hampI : '&' ∉ serToks [HTok.tagO "p".data injP, .txt raw, .tagC "p".data] :=
    hxin '&' (by decide) hamp (by decide)
  have hstarI : '*' ∉ serToks [HTok.tagO "p".data injP, .txt raw, .tagC "p".data] :=
    hxin '*' (by decide) hstar (by decide)
  have hnlI : '\n' ∉ serToks [HTok.tagO "p".data injP, .txt raw, .tagC "p".data] :=
    hxin '\n' (by decide) hnl (by decide)
  have hdigI : ∀ c ∈ serToks [HTok.tagO "p".data injP, .txt raw, .tagC "p".data], c.isDigit = false := by
    intro c hm
    rw [serToks_ptxt] at hm
    rcases List.mem_append.mp hm with hA | hA
    · exact (show ∀ c ∈ serTok (HTok.tagO "p".data injP), c.isDigit = false by decide) c hA
    rcases List.mem_append.mp hA with hB | hB
    · exact hdig c hB
    · exact (show ∀ c ∈ ("</p>".data : Chars), c.isDigit = false by decide) c hB
  have hy : fmtAdviceL raw = wrapOpenS.data ++ (serToks [HTok.tagO "p".data injP, .txt raw, .tagC "p".data] ++ "</div>".data) := by
    rw [show fmtAdviceL raw = wrapOpenS.data ++ fmtInnerL raw ++ "</div>".data from rfl,
      fmtInner_plain hne hc]
    simp [List.append_assoc]
  have hampY : '&' ∉ fmtAdviceL raw := by
    rw [hy]
    intro hm
    rcases List.mem_append.mp hm with hA | hA
    · exact (show ('&' : Char) ∉ wrapOpenS.data by decide) hA
    rcases List.mem_append.mp hA with hB | hB
    · exact hampI hB
    · exact (show ('&' : Char) ∉ ("</div>".data : Chars) by decide) hB
  have hg1 : (if occurs escWrapS.data (fmtAdviceL raw) then unescapeHtmlL (fmtAdviceL raw)
      else fmtAdviceL raw) = fmtAdviceL raw := by
    rw [occurs_false_of_head (show escWrapS.data
      = '&' :: "lt;div class=\"advice-content\"&gt;".data from by decide) hampY]
    rfl
  have hwneq : (wrapOpenS.data : Chars) ≠ [] := by decide
  have hend : ("</div>".data : Chars) = closePat "div".data := by decide
  have hclne : (closePat "div".data : Chars) ≠ [] := by decide
  have hocc : occurs wrapOpenS.data (fmtAdviceL raw) = true := by
    rw [hy]
    exact occurs_of_isPre (isPre_append_self _ _)
  have hsp1 : splitFirst wrapOpenS.data (fmtAdviceL raw)
      = some ([], serToks [HTok.tagO "p".data injP, .txt raw, .tagC "p".data] ++ "</div>".data) := by
    rw [hy, splitFirst_pre hwneq (isPre_append_self _ _), List.drop_left]
  have hsp2 : splitFirst "</div>".data (serToks [HTok.tagO "p".data injP, .txt raw, .tagC "p".data] ++ "</div>".data)
      = some (serToks [HTok.tagO "p".data injP, .txt raw, .tagC "p".data], []) := by
    rw [hend]
    rw [splitFirst_toks "div".data [HTok.tagO "p".data injP, .txt raw, .tagC "p".data] hM1wf.1 (by
      intro nm hm
      rcases List.mem_cons.mp hm with h1 | h1
      · simp at h1
      rcases List.mem_cons.mp h1 with h2 | h2
      · simp at h2
      · have h3 := List.mem_singleton.mp h2
        simp only [HTok.tagC.injEq] at h3
        rw [h3]
        decide)]
    rw [splitFirst_pre hclne (isPre_self _), List.drop_length]
    simp
  have hunw : unwrapL (fmtAdviceL raw) = serToks [HTok.tagO "p".data injP, .txt raw, .tagC "p".data] := by
    unfold unwrapL
    rw [hocc, if_pos rfl, hsp1]
    show ((splitFirst "</div>".data
      (serToks [HTok.tagO "p".data injP, .txt raw, .tagC "p".data] ++ "</div>".data)).map Prod.fst).getD (fmtAdviceL raw)
      = serToks [HTok.tagO "p".data injP, .txt raw, .tagC "p".data]
    rw [hsp2]
    rfl
  have hIne : serToks [HTok.tagO "p".data injP, .txt raw, .tagC "p".data] ≠ [] := by
    rw [serToks_ptxt]
    simp [serTok]
  have hheadI : (serToks [HTok.tagO "p".data injP, .txt raw, .tagC "p".data]).head? = some '<' := by
    rw [serToks_ptxt]
    rfl
  have hlastI : (serToks [HTok.tagO "p".data injP, .txt raw, .tagC "p".data]).getLast? = some '>' := by
    rw [serToks_ptxt]
    rw [show serTok (HTok.tagO "p".data injP) ++ (raw ++ "</p>".data)
        = (serTok (HTok.tagO "p".data injP) ++ raw) ++ "</p>".data from by simp]
    rw [getLast?_append_right (by decide)]
    decide
  have htrI : trimL (serToks [HTok.tagO "p".data injP, .txt raw, .tagC "p".data]) = serToks [HTok.tagO "p".data injP, .txt raw, .tagC "p".data] :=
    trimL_id
      (fun c h0 => by
        rw [hheadI] at h0
        simp only [Option.some.injEq] at h0
        rw [← h0]
        decide)
      (fun c h0 => by
        rw [hlastI] at h0
        simp only [Option.some.injEq] at h0
        rw [← h0]
        decide)
  have hheadEx : ∃ cs, serToks [HTok.tagO "p".data injP, .txt raw, .tagC "p".data] = '<' :: cs := by
    refine ⟨(serTok (HTok.tagO "p".data injP)).tail ++ (raw ++ "</p>".data), ?_⟩
    rw [serToks_ptxt]
    rfl
  have hmdI : mdConvert (serToks [HTok.tagO "p".data injP, .txt raw, .tagC "p".data]) = serToks [HTok.tagO "p".data injP, .txt raw, .tagC "p".data] :=
    mdConvert_raw hIne hnlI htrI hheadEx
  have htok1 : tokenizeL (serToks [HTok.tagO "p".data injP, .txt raw, .tagC "p".data]) = [HTok.tagO "p".data injP, .txt raw, .tagC "p".data] :=
    tokenizeL_serToks _ hM1wf
  have hf1b : filterTok (HTok.tagO "p".data injP) = HTok.tagO "p".data injP := by
    rw [filterTok_tagO, if_pos (show ("p".data : Chars) ∈ allowedTagNames by decide)]
    rw [show ((injP.filter (fun a => a.1 ∈ allowedAttrNames)).map
      (fun a => (a.1, escVal a.2))) = injP from by decide]
  have hf2b : filterTok (HTok.txt raw) = HTok.txt raw := by
    rw [show filterTok (HTok.txt raw) = HTok.txt (escText raw) from rfl]
    rw [escText_id (fun c hm => by
      have hf := plainFacts c (hc c hm)
      exact ⟨hf.2.2.1, hf.2.2.2.1, hf.2.2.2.2.1⟩)]
  have hf3b : filterTok (HTok.tagC "p".data) = HTok.tagC "p".data := by
    rw [filterTok_tagC, if_pos (show ("p".data : Chars) ∈ allowedTagNames by decide)]
  have hmapb : ([HTok.tagO "p".data injP, .txt raw, .tagC "p".data]).map filterTok = [HTok.tagO "p".data injP, .txt raw, .tagC "p".data] := by
    rw [List.map_cons, List.map_cons, List.map_cons, List.map_nil, hf1b, hf2b, hf3b]
  have hmergeb : mergeTxts [HTok.tagO "p".data injP, .txt raw, .tagC "p".data] = [HTok.tagO "p".data injP, .txt raw, .tagC "p".data] := by
    rw [show mergeTxts [HTok.tagO "p".data injP, .txt raw, .tagC "p".data]
        = HTok.tagO "p".data injP :: pushTxt raw (mergeTxts [HTok.tagC "p".data]) from rfl]
    rw [show mergeTxts [HTok.tagC "p".data] = [HTok.tagC "p".data] from rfl]
    rw [pushTxt_other hne (by intro s2 r he; simp at he)]
  have hbcI : bleachCleanL (serToks [HTok.tagO "p".data injP, .txt raw, .tagC "p".data]) = serToks [HTok.tagO "p".data injP, .txt raw, .tagC "p".data] := by
    rw [show bleachCleanL (serToks [HTok.tagO "p".data injP, .txt raw, .tagC "p".data])
        = serToks (mergeTxts ((tokenizeL (serToks [HTok.tagO "p".data injP, .txt raw, .tagC "p".data])).map filterTok)) from rfl]
    rw [htok1, hmapb, hmergeb]
  obtain ⟨hq1, _, _⟩ := injectAll_tokens [HTok.tagO "p".data injP, .txt raw, .tagC "p".data] hM1wf hok1
  have hIA1 : injAllToks [HTok.tagO "p".data injP, .txt raw, .tagC "p".data] = [HTok.tagO "p".data injP, .txt raw, .tagC "p".data] := rfl
  rw [show fmtInnerL (fmtAdviceL raw) = injectAll (bleachCleanL (mdConvert (numSub (boldSub
    (unwrapL (if occurs escWrapS.data (fmtAdviceL raw) then unescapeHtmlL (fmtAdviceL raw)
      else fmtAdviceL raw)))))) from rfl]
  rw [hg1, hunw, boldSub_id hstarI, numSub_id hdigI, hmdI, hbcI, hq1, hIA1]

theorem fmtAdviceL_plain_idem {raw : Chars} (hne : raw ≠ [])
    (hc : ∀ c ∈ raw, c ∈ plainAlphabet) :
    fmtAdviceL (fmtAdviceL raw) = fmtAdviceL raw := by
  rw [show fmtAdviceL (fmtAdviceL raw)
      = wrapOpenS.data ++ fmtInnerL (fmtAdviceL raw) ++ "</div>".data from rfl]
  rw [fmtInner_plain2 hne hc, ← fmtInner_plain hne hc]
  rfl

theorem fmtInnerL_eq_of_steps {raw u : Chars} {M : List HTok}
    (h1 : occurs escWrapS.data raw = false)
    (h2 : unwrapL raw = u)
    (h3 : boldSub u = u) (h4 : numSub u = u) (h5 : mdConvert u = u)
    (h6 : bleachCleanL u = serToks M) (h7 : wfToks M) (h8 : ∀ t ∈ M, okTok t)
    (h9 : injAllToks M = M) :
    fmtInnerL raw = serToks M := by
  rw [show fmtInnerL raw = injectAll (bleachCleanL (mdConvert (numSub (boldSub (unwrapL
    (if occurs escWrapS.data raw then unescapeHtmlL raw else raw)))))) from rfl]
  rw [h1, if_neg (by simp), h2, h3, h4, h5, h6, (injectAll_tokens M h7 h8).1, h9]

theorem wfToks_cex1 : wfToks [HTok.tagO "div".data [], .txt ['a'], .tagC "div".data,
    .tagO "div".data [], .txt ['b'], .tagC "div".data] := by
  refine ⟨?_, ?_⟩
  · intro t ht
    rcases List.mem_cons.mp ht with h | h
    · rw [h]
      exact ⟨⟨by decide, by decide⟩, by simp⟩
    rcases List.mem_cons.mp h with h | h
    · rw [h]
      exact ⟨by decide, by decide⟩
    rcases List.mem_cons.mp h with h | h
    · rw [h]
      exact ⟨by decide, by decide⟩
    rcases List.mem_cons.mp h with h | h
    · rw [h]
      exact ⟨⟨by decide, by decide⟩, by simp⟩
    rcases List.mem_cons.mp h with h | h
    · rw [h]
      exact ⟨by decide, by decide⟩
    · rw [List.mem_singleton.mp h]
      exact ⟨by decide, by decide⟩
  · exact List.Chain'.cons (Or.inl rfl) (List.Chain'.cons (Or.inr rfl)
      (List.Chain'.cons (Or.inl rfl) (List.Chain'.cons (Or.inl rfl)
        (List.Chain'.cons (Or.inr rfl) (List.chain'_singleton _)))))

theorem okToks_cex1 : ∀ t ∈ [HTok.tagO "div".data [], .txt ['a'], .tagC "div".data,
    .tagO "div".data [], .txt ['b'], .tagC "div".data], okTok t := by
  intro t ht
  rcases List.mem_cons.mp ht with h | h
  · rw [h]
    exact ⟨by decide, by simp⟩
  rcases List.mem_cons.mp h with h | h
  · rw [h]
    trivial
  rcases List.mem_cons.mp h with h | h
  · rw [h]
    exact (show ("div".data : Chars) ∈ allowedTagNames by decide)
  rcases List.mem_cons.mp h with h | h
  · rw [h]
    exact ⟨by decide, by simp⟩
  rcases List.mem_cons.mp h with h | h
  · rw [h]
    trivial
  · rw [List.mem_singleton.mp h]
    exact (show ("div".data : Chars) ∈ allowedTagNames by decide)

theorem wfToks_cex2 : wfToks [HTok.tagO "div".data [], .txt ['a']] := by
  refine ⟨?_, ?_⟩
  · intro t ht
    rcases List.mem_cons.mp ht with h | h
    · rw [h]
      exact ⟨⟨by decide, by decide⟩, by simp⟩
    · rw [List.mem_singleton.mp h]
      exact ⟨by decide, by decide⟩
  · exact List.Chain'.cons (Or.inl rfl) (List.chain'_singleton _)

theorem okToks_cex2 : ∀ t ∈ [HTok.tagO "div".data [], .txt ['a']], okTok t := by
  intro t ht
  rcases List.mem_cons.mp ht with h | h
  · rw [h]
    exact ⟨by decide, by simp⟩
  · rw [List.mem_singleton.mp h]
    trivial

theorem cex_pass1 : fmtAdviceL "<div>a</div><div>b</div>".data
    = "<div class=\"advice-content\"><div>a</div><div>b</div></div>".data := by
  have e1 : fmtInnerL "<div>a</div><div>b</div>".data
      = serToks [HTok.tagO "div".data [], .txt ['a'], .tagC "div".data,
        .tagO "div".data [], .txt ['b'], .tagC "div".data] :=
    fmtInnerL_eq_of_steps (u := "<div>a</div><div>b</div>".data) (by decide) (by decide)
      (boldSub_id (by decide)) (numSub_id (by decide)) (by decide)
      (by decide) wfToks_cex1 okToks_cex1 (by decide)
  rw [show fmtAdviceL "<div>a</div><div>b</div>".data
      = wrapOpenS.data ++ fmtInnerL "<div>a</div><div>b</div>".data ++ "</div>".data
      from rfl, e1]
  decide

theorem cex_pass2 :
    fmtAdviceL "<div class=\"advice-content\"><div>a</div><div>b</div></div>".data
    = "<div class=\"advice-content\"><div>a</div>".data := by
  have e2 : fmtInnerL
      "<div class=\"advice-content\"><div>a</div><div>b</div></div>".data
      = serToks [HTok.tagO "div".data [], .txt ['a']] :=
    fmtInnerL_eq_of_steps (u := "<div>a".data) (by decide) (by decide)
      (boldSub_id (by decide)) (numSub_id (by decide)) (by decide)
      (by decide) wfToks_cex2 okToks_cex2 (by decide)
  rw [show fmtAdviceL
      "<div class=\"advice-content\"><div>a</div><div>b</div></div>".data
      = wrapOpenS.data ++ fmtInnerL
        "<div class=\"advice-content\"><div>a</div><div>b</div></div>".data
        ++ "</div>".data from rfl, e2]
  decide

/-- C3: counterexample to idempotence as claimed. On the already-tag-bearing
input `<div>a</div><div>b</div>`, the second application of
format_investment_advice truncates the content at the first inner `</div>`
(the non-greedy wrapper regex stops there), so format(format(x)) ≠ format(x). -/
theorem C3_counterexample :
    fmtAdvice (fmtAdvice "<div>a</div><div>b</div>")
      ≠ fmtAdvice "<div>a</div><div>b</div>" := by
  intro he
  have hd : fmtAdviceL (fmtAdviceL "<div>a</div><div>b</div>".data)
      = fmtAdviceL "<div>a</div><div>b</div>".data := congrArg String.data he
  rw [cex_pass1, cex_pass2] at hd
  exact absurd hd (by decide)

/-- C3 (amended): format_investment_advice is idempotent on plain alphabetic
text: for every nonempty string of ASCII letters, applying the formatter
twice equals applying it once. -/
theorem C3_plain_idempotent (x : String) (h1 : x.data ≠ [])
    (h2 : ∀ c ∈ x.data, c ∈ plainAlphabet) :
    fmtAdvice (fmtAdvice x) = fmtAdvice x := by
  have h3 := fmtAdviceL_plain_idem h1 h2
  show (⟨fmtAdviceL (fmtAdvice x).data⟩ : String) = ⟨fmtAdviceL x.data⟩
  rw [show (fmtAdvice x).data = fmtAdviceL x.data from rfl, h3]

/-- C3 witness: the amended idempotence theorem applied at "hello". -/
theorem C3_witness : (("hello".data : Chars) ≠ [] ∧ ∀ c ∈ "hello".data, c ∈ plainAlphabet)
    ∧ fmtAdvice (fmtAdvice "hello") = fmtAdvice "hello" :=
  ⟨⟨by decide, by decide⟩, C3_plain_idempotent "hello" (by decide) (by decide)⟩

/-- C1 witness: the sanitizer guarantee applied at a concrete input and at the
concrete wrapper token of its output. -/
theorem C1_witness :
    okTok (HTok.tagO "div".data [("class".data, "advice-content".data)]) ∧
    tokTagName (HTok.tagO "div".data [("class".data, "advice-content".data)])
      ≠ some "script".data ∧
    "onclick".data ∉ tokAttrNames
      (HTok.tagO "div".data [("class".data, "advice-content".data)]) := by
  have hmem : HTok.tagO "div".data [("class".data, "advice-content".data)]
      ∈ tokenizeL (fmtAdvice "<div>a</div><div>b</div>").data := by
    rw [show (fmtAdvice "<div>a</div><div>b</div>").data
        = fmtAdviceL "<div>a</div><div>b</div>".data from rfl, cex_pass1]
    decide
  exact C1_sanitizer_allowlist "<div>a</div><div>b</div>" _ hmem

end FinAdvisor

